import Mathlib

/-!
Verification development for the WordPress/email plugin's core HTTP engine,
file resolver and log redactor.  Python source is shallowly embedded over
`List Char` (text), `Nat`/`Int` (numbers) and `Except`/`Option` (fallible
code).  Each definition cites the source file and lines it embeds.
Case-sensitive behaviour of Python's `str.lower`, `re.IGNORECASE` and
`int()` is modelled at ASCII level (the repository only feeds ASCII header
values and markers through these paths).
-/

namespace WpPlugin

/-! ### Character classes (Python `re` classes and `str` predicates) -/

/-- ASCII `[A-Za-z]`. -/
def isAsciiAlphaCh (c : Char) : Bool :=
  ('A' ≤ c && c ≤ 'Z') || ('a' ≤ c && c ≤ 'z')

/-- ASCII `[0-9]`. -/
def isDigitCh (c : Char) : Bool :=
  '0' ≤ c && c ≤ '9'

/-- Python regex class `[A-Za-z0-9]` (rule 2 of `_sanitize_for_log`). -/
def isAlnumCh (c : Char) : Bool :=
  isAsciiAlphaCh c || isDigitCh c

/-- Python regex class `[A-Za-z0-9+/=]` (rule 1 of `_sanitize_for_log`). -/
def isB64Ch (c : Char) : Bool :=
  isAlnumCh c || c == '+' || c == '/' || c == '='

/-- Python `\s` / `str.strip()` whitespace (ASCII part plus the common
Unicode spaces the `re` module recognises). -/
def isPyWsCh (c : Char) : Bool :=
  c == ' ' || c == '\t' || c == '\n' || c == '\r' ||
  c == '\x0b' || c == '\x0c' ||
  c == '\x1c' || c == '\x1d' || c == '\x1e' || c == '\x1f' ||
  c == '\x85' || c == '\xa0' || c == '\u2028' || c == '\u2029' || c == '\u3000'

/-- Python `str.strip()`: drop leading and trailing whitespace. -/
def pyStrip (s : List Char) : List Char :=
  ((s.dropWhile isPyWsCh).reverse.dropWhile isPyWsCh).reverse

/-- Python `str.lower()` (ASCII model). -/
def pyLower (s : List Char) : List Char :=
  s.map Char.toLower

/-- Digit value of an ASCII digit character. -/
def digitVal (c : Char) : Nat :=
  c.toNat - '0'.toNat

/-- Digit-group tail of Python `int(str)`: digits with single underscores
allowed between digits. -/
def pyIntGo (acc : Nat) : List Char → Option Nat
  | [] => some acc
  | '_' :: rest =>
    match rest with
    | d :: rest' => if isDigitCh d then pyIntGo (acc * 10 + digitVal d) rest' else none
    | [] => none
  | d :: rest => if isDigitCh d then pyIntGo (acc * 10 + digitVal d) rest else none

/-- Magnitude part of Python `int(str)`: at least one digit, underscores
only between digits. -/
def pyIntDigits : List Char → Option Nat
  | [] => none
  | d :: rest => if isDigitCh d then pyIntGo (digitVal d) rest else none

/-- Python `int(str)`: strips whitespace, accepts an optional sign, then
digits with single underscores between them; `none` models `ValueError`. -/
def pyParseInt (s : List Char) : Option Int :=
  match pyStrip s with
  | [] => none
  | c :: rest =>
    if c = '-' then (pyIntDigits rest).map (fun n => -(n : Int))
    else if c = '+' then (pyIntDigits rest).map (fun n => (n : Int))
    else (pyIntDigits (c :: rest)).map (fun n => (n : Int))

/-! ### Base-URL normalisation (tools/http_client.py, `__post_init__`, lines 61-73) -/

/-- Literal `"/wp-json/wp/v2"`. -/
def wpSuffix : List Char := "/wp-json/wp/v2".data

/-- Python `str.rstrip("/")`: drop trailing `'/'` characters. -/
def rstripSlash (s : List Char) : List Char :=
  (s.reverse.dropWhile (· == '/')).reverse

/-- Embeds `WordPressHttpClient.__post_init__` (tools/http_client.py lines
61-73): reject empty / whitespace-only URLs, strip trailing slashes, append
`/wp-json/wp/v2` unless already present. -/
def postInitBaseUrl (wordpress_url : List Char) : Except (List Char) (List Char) :=
  if wordpress_url = [] ∨ pyStrip wordpress_url = [] then
    .error "WordPressサイトURLが空です。Difyのプロバイダー設定でWordPressサイトURLを確認してください。".data
  else if wpSuffix.isSuffixOf (rstripSlash wordpress_url) then .ok (rstripSlash wordpress_url)
  else .ok (rstripSlash wordpress_url ++ wpSuffix)

/-! ### Email message id (provider/http_client.py, `send_transactional_email`, lines 189-202) -/

/-- Embeds the tail of `send_transactional_email` (provider/http_client.py
lines 196-202): take the `X-Message-Id` response header; if missing or
empty, synthesise `msg_{int(time.time())}`.  `now` stands for
`int(time.time())` at the moment of the call; the header map abstracts
the response's header dictionary. -/
def sendEmailMessageId (headers : List (List Char × List Char)) (now : Nat) : List Char :=
  let message_id := (headers.lookup "X-Message-Id".data).getD []
  if message_id = [] then "msg_".data ++ Nat.toDigits 10 now else message_id

/-! ### Inline content coercion (tools/file_utils.py, `_coerce_bytes` lines 108-117,
`_resolve_single` lines 47-73) -/

/-- Base64 alphabet `[A-Za-z0-9+/]` (padding `'='` handled separately). -/
def isB64AlphaCh (c : Char) : Bool :=
  isAlnumCh c || c == '+' || c == '/'

/-- Validity of `base64.b64decode(s, validate=True)` (CPython 3.11 runs
`binascii.a2b_base64(s, strict_mode=True)`): every character before the
trailing run of `=` must be a base64 alphabet character, and the
data-character count modulo 4 decides the padding — a multiple of four
accepts any amount of trailing padding (but bare padding with no data is
rejected), two remaining characters need exactly `==`, three need exactly
`=`, and a remainder of one is always rejected. -/
def pyB64Valid (s : List Char) : Bool :=
  let pad := s.reverse.takeWhile (· == '=')
  let core := (s.reverse.dropWhile (· == '=')).reverse
  core.all isB64AlphaCh &&
    (if core.length % 4 == 0 then pad.length == 0 || !(core.length == 0)
     else if core.length % 4 == 2 then pad.length == 2
     else if core.length % 4 == 3 then pad.length == 1
     else false)

/-- Sextet value of a base64 alphabet character. -/
def b64Sextet (c : Char) : Nat :=
  if isAsciiAlphaCh c then
    (if c ≤ 'Z' then c.toNat - 'A'.toNat else c.toNat - 'a'.toNat + 26)
  else if isDigitCh c then c.toNat - '0'.toNat + 52
  else if c == '+' then 62
  else 63

/-- Byte content of a valid base64 string, 4 sextets to 3 bytes, with the
final partial group (padding removed) yielding 2 or 1 bytes. -/
def b64DecodeCore : List Char → List Nat
  | a :: b :: c :: d :: rest =>
    let w := b64Sextet a * 262144 + b64Sextet b * 4096 + b64Sextet c * 64 + b64Sextet d
    (w / 65536) :: ((w / 256) % 256) :: (w % 256) :: b64DecodeCore rest
  | [a, b, c] =>
    let w := b64Sextet a * 4096 + b64Sextet b * 64 + b64Sextet c
    [w / 1024, (w / 4) % 256]
  | [a, b] =>
    let w := b64Sextet a * 64 + b64Sextet b
    [w / 16]
  | [_] => []
  | [] => []

/-- Python `base64.b64decode(s, validate=True)`, `none` modelling
`binascii.Error`. -/
def pyB64Decode (s : List Char) : Option (List Nat) :=
  if pyB64Valid s then some (b64DecodeCore ((s.reverse.dropWhile (· == '=')).reverse))
  else none

/-- UTF-8 bytes of one code point (Python `str.encode("utf-8")`). -/
def utf8Bytes (c : Char) : List Nat :=
  let n := c.toNat
  if n < 128 then [n]
  else if n < 2048 then [192 + n / 64, 128 + n % 64]
  else if n < 65536 then [224 + n / 4096, 128 + (n / 64) % 64, 128 + n % 64]
  else [240 + n / 262144, 128 + (n / 4096) % 64, 128 + (n / 64) % 64, 128 + n % 64]

/-- Python `str.encode("utf-8")`. -/
def utf8Encode (s : List Char) : List Nat :=
  s.flatMap utf8Bytes

/-- Values that can sit in a file reference's `content`/`data` field. -/
inductive PyVal where
  | bytes (bs : List Nat)
  | str (s : List Char)
  | other
deriving DecidableEq

/-- Python truthiness of such a value (`if content:`). -/
def pyTruthy : PyVal → Bool
  | .bytes bs => bs ≠ []
  | .str s => s ≠ []
  | .other => true

/-- Embeds `_coerce_bytes` (tools/file_utils.py lines 108-117): bytes pass
through; a string is stripped then decoded as strict base64, falling back
to the stripped string's UTF-8 bytes when `b64decode` raises; any other
value raises `ValueError`. -/
def coerce_bytes : PyVal → Except (List Char) (List Nat)
  | .bytes bs => .ok bs
  | .str s =>
    let stripped := pyStrip s
    match pyB64Decode stripped with
    | some bs => .ok bs
    | none => .ok (utf8Encode stripped)
  | .other => .error "content/data には bytes か base64文字列を指定してください".data

/-- File-reference mapping shape accepted by the resolver (already
serialised, cf. `_serialize_file_info`). -/
structure FileInfoDict where
  path : Option (List Char)
  content : Option PyVal
  data : Option PyVal
  url : Option (List Char)
  upload_file_id : Option (List Char)

/-- Outcome of `_resolve_single` on a mapping, abstracting the filesystem
and network: which action the resolver takes and with what payload. -/
inductive Resolution where
  | fromPath (p : List Char)
  | tempFile (payload : List Nat)
  | download (url : List Char)
  | err (msg : List Char)
deriving DecidableEq

/-- Embeds the mapping branch of `_resolve_single` (tools/file_utils.py
lines 47-73): explicit path first, then inline `content`/`data` written to
a temporary file through `_coerce_bytes`, then `url`, then
`upload_file_id` expanded through the files.dify.ai template. -/
def resolve_single (fi : FileInfoDict) : Resolution :=
  match fi.path with
  | some p => if p ≠ [] then .fromPath p else resolveContent fi
  | none => resolveContent fi
where
  resolveContent (fi : FileInfoDict) : Resolution :=
    let content :=
      match fi.content with
      | some v => if pyTruthy v then some v else (fi.data.filter pyTruthy)
      | none => fi.data.filter pyTruthy
    match content with
    | some v =>
      match coerce_bytes v with
      | .ok payload => .tempFile payload
      | .error m => .err m
    | none =>
      match fi.url with
      | some u => if u ≠ [] then .download u else resolveUpload fi
      | none => resolveUpload fi
  resolveUpload (fi : FileInfoDict) : Resolution :=
    match fi.upload_file_id with
    | some uid =>
      if uid ≠ [] then .download ("https://files.dify.ai/".data ++ uid)
      else .err "ファイル情報に path/url/content のいずれも含まれていません".data
    | none => .err "ファイル情報に path/url/content のいずれも含まれていません".data

/-! ### Bounded download (tools/file_utils.py, `_download`, lines 127-179) -/

/-- Python exceptions relevant to `_download`. -/
inductive PyExc where
  | valueError (msg : List Char)
  | typeError
  | otherExc
deriving DecidableEq

/-- Maximum download size: `10 * 1024 * 1024` bytes. -/
def MAX_DOWNLOAD_SIZE : Nat := 10 * 1024 * 1024

/-- Body of the `try` at tools/file_utils.py lines 149-155: `int()` of the
declared length (raising `ValueError` on a malformed header), then an
explicit `ValueError` when it exceeds the maximum. -/
def contentLengthTryBody (cl : List Char) : Except PyExc Unit :=
  match pyParseInt cl with
  | none => .error (.valueError "invalid literal for int".data)
  | some size =>
    if size > (MAX_DOWNLOAD_SIZE : Int) then
      .error (.valueError "ファイルサイズが大きすぎます".data)
    else .ok ()

/-- Embeds the Content-Length guard (tools/file_utils.py lines 147-157):
the header is examined only when present and truthy, and the surrounding
`except (ValueError, TypeError): pass` swallows any such exception raised
by the `try` body — including the intentional oversize rejection. -/
def contentLengthGuard (cl : Option (List Char)) : Except PyExc Unit :=
  match cl with
  | none => .ok ()
  | some v =>
    if v ≠ [] then
      match contentLengthTryBody v with
      | .error (.valueError _) => .ok ()
      | .error .typeError => .ok ()
      | .error e => .error e
      | .ok () => .ok ()
    else .ok ()

/-- One event of `response.iter_content`: a chunk of a given byte length,
or an exception raised mid-iteration (network error, write error, ...). -/
inductive StreamEvent where
  | chunk (len : Nat)
  | fail
deriving DecidableEq

/-- Observable outcome of `_download` after the guard: whether a temporary
file was created, whether it still exists afterwards, and the written
chunk lengths or the propagated exception. -/
structure DownloadResult where
  tempCreated : Bool
  tempExists : Bool
  outcome : Except PyExc (List Nat)

/-- Streaming loop of `_download` (tools/file_utils.py lines 159-179):
empty chunks are skipped, the running total is bumped before writing and
the download aborts once it exceeds the maximum; any exception deletes the
temporary file and propagates. -/
def streamToTemp : List StreamEvent → Nat → List Nat → DownloadResult
  | [], _, written => ⟨true, true, .ok written⟩
  | .chunk n :: rest, size, written =>
    if n ≠ 0 then
      if size + n > MAX_DOWNLOAD_SIZE then
        ⟨true, false, .error (.valueError "ダウンロード中にファイルサイズが制限を超えました".data)⟩
      else streamToTemp rest (size + n) (written ++ [n])
    else streamToTemp rest size written
  | .fail :: _, _, _ => ⟨true, false, .error .otherExc⟩

/-- Embeds `_download` after `raise_for_status` (tools/file_utils.py lines
146-179): the Content-Length guard runs first (before `tempfile.mkstemp`),
then the temporary file is created and the body streamed into it. -/
def downloadModel (cl : Option (List Char)) (events : List StreamEvent) : DownloadResult :=
  match contentLengthGuard cl with
  | .error e => ⟨false, false, .error e⟩
  | .ok () => streamToTemp events 0 []

/-- Total length of the non-empty chunks of a stream. -/
def sumChunks : List StreamEvent → Nat
  | [] => 0
  | .chunk n :: rest => n + sumChunks rest
  | .fail :: rest => sumChunks rest

/-! ### Retrying request engine (tools/http_client.py `_request` lines 449-501;
provider/http_client.py `_request` lines 481-537 — the two loops are
line-for-line identical, so one embedding covers both) -/

/-- `_RETRY_STATUSES` (tools/http_client.py line 20, provider line 26). -/
def retryStatuses : List Nat := [408, 425, 429, 500, 502, 503, 504]

/-- What one dispatch of `self._session.request` produces: a transport
exception (`requests.RequestException`) or a response with a status code
and an optional `Retry-After` header value. -/
inductive AttemptOutcome where
  | transErr (msg : List Char)
  | resp (status : Nat) (retryAfter : Option (List Char))

/-- Final outcome of `_request`. -/
inductive ReqResult where
  | success (status : Nat)
  | fatalTransport (msg : List Char)
  | fatalStatus (status : Nat)
  | exhausted
deriving DecidableEq

/-- Trace of one `_request` execution: the sleeps performed (in seconds,
in order), the number of dispatch attempts, and the result. -/
structure RunTrace where
  sleeps : List Int
  attempts : Nat
  result : ReqResult

/-- Sleep performed before re-attempting a retryable response (tools
lines 467-484): for a 429 with a truthy `Retry-After`, `int()` is tried
and `time.sleep(wait_seconds)` is attempted inside the same
`try .. except (ValueError, TypeError)`; since `time.sleep` raises
`ValueError` on a negative argument, both a non-numeric and a negative
header fall back to `2 ** attempt`; everything else backs off
exponentially. -/
def retryDelay (status : Nat) (retryAfter : Option (List Char)) (attempt : Nat) : Int :=
  if status = 429 then
    match retryAfter with
    | some v =>
      if v ≠ [] then
        match pyParseInt v with
        | some n => if 0 ≤ n then n else (2 : Int) ^ attempt
        | none => (2 : Int) ^ attempt
      else (2 : Int) ^ attempt
    | none => (2 : Int) ^ attempt
  else (2 : Int) ^ attempt

/-- Attempt loop of `_request` (tools/http_client.py lines 449-501):
`for attempt in range(max_retries + 1)`, transport failures retried with
exponential backoff while attempts remain and otherwise fatal, retryable
statuses slept on and retried while attempts remain, any other status
≥ 400 fatal, and a status < 400 returned.  `script attempt` is what the
dispatch of that attempt produces; `fuel` counts the loop iterations left
(`max_retries + 1 - attempt`), the fuel-exhausted case being the dead
`raise` after the `for`. -/
def requestLoop (script : Nat → AttemptOutcome) (maxRetries : Nat) :
    Nat → Nat → RunTrace
  | 0, _ => ⟨[], 0, .exhausted⟩
  | fuel + 1, attempt =>
    match script attempt with
    | .transErr m =>
      if attempt < maxRetries then
        let t := requestLoop script maxRetries fuel (attempt + 1)
        ⟨((2 : Int) ^ attempt) :: t.sleeps, t.attempts + 1, t.result⟩
      else ⟨[], 1, .fatalTransport m⟩
    | .resp st ra =>
      if st ∈ retryStatuses ∧ attempt < maxRetries then
        let t := requestLoop script maxRetries fuel (attempt + 1)
        ⟨retryDelay st ra attempt :: t.sleeps, t.attempts + 1, t.result⟩
      else if 400 ≤ st then ⟨[], 1, .fatalStatus st⟩
      else ⟨[], 1, .success st⟩

/-- One full `_request` call: attempt loop started at attempt 0 with
`max_retries + 1` iterations available. -/
def executeRequest (script : Nat → AttemptOutcome) (maxRetries : Nat) : RunTrace :=
  requestLoop script maxRetries (maxRetries + 1) 0

/-! ### JSON response classification (tools/http_client.py,
`_parse_json_response`, lines 503-575) -/

/-- Outcome of `_parse_json_response`: the parsed body, or a raised
`WordPressHttpError` with status, message and body. -/
inductive ParseOutcome where
  | success
  | error (status : Nat) (message : List Char) (body : List Char)

/-- Boolean substring test (Python `in` on strings). -/
def infixOf (needle hay : List Char) : Bool :=
  decide (needle <:+: hay)

/-- Scan of the HTML body for login markers (lines 528-529). -/
def loginMarker (body : List Char) : Bool :=
  infixOf "login".data (pyLower body) || infixOf "ログイン".data body

/-- Scan of the HTML body for 404-style markers (line 530). -/
def notFoundMarker (body : List Char) : Bool :=
  infixOf "404".data body || infixOf "not found".data (pyLower body)

/-- Scan of the HTML body for 403-style markers (line 532). -/
def forbiddenMarker (body : List Char) : Bool :=
  infixOf "403".data body || infixOf "forbidden".data (pyLower body)

/-- Base of the HTML diagnostic (line 527). -/
def htmlBaseMsg : List Char :=
  "WordPress APIがHTMLレスポンスを返しました。".data

/-- Diagnostic hints appended in priority order (lines 528-535). -/
def credentialHint : List Char :=
  " 認証エラーの可能性があります。ユーザー名とアプリケーションパスワードを確認してください。".data

/-- Hint for 404-style HTML bodies. -/
def endpointHint : List Char :=
  " REST APIエンドポイントが見つかりません。WordPressサイトURLが正しいか確認してください。".data

/-- Hint for 403-style HTML bodies. -/
def permissionHint : List Char :=
  " アクセスが拒否されました。ユーザーの権限を確認してください。".data

/-- Hint when no marker is recognised. -/
def disabledHint : List Char :=
  " REST APIが有効でない可能性があります。WordPressサイトの設定を確認してください。".data

/-- Hint selection of lines 527-535: login markers, then 404 markers, then
403 markers, otherwise the REST-disabled hint. -/
def htmlErrorHint (body : List Char) : List Char :=
  htmlBaseMsg ++
    (if loginMarker body then credentialHint
     else if notFoundMarker body then endpointHint
     else if forbiddenMarker body then permissionHint
     else disabledHint)

/-- Message raised for an empty response body (lines 516-520). -/
def emptyRespMsg : List Char :=
  "WordPress APIが空のレスポンスを返しました。".data

/-- Embeds `_parse_json_response` (tools/http_client.py lines 503-575):
empty or whitespace-only bodies raise first; an HTML content type raises
with a marker-derived hint, the request URL, and an extra note when the
URL points at localhost:8080; otherwise `response.json()` is tried —
`jsonOk` abstracts whether that stdlib call succeeds. -/
def parse_json_response (status : Nat) (contentType body url : List Char)
    (jsonOk : Bool) : ParseOutcome :=
  let content_type := pyLower contentType
  if body = [] ∨ pyStrip body = [] then .error status emptyRespMsg []
  else if infixOf "text/html".data content_type then
    let additional_hint :=
      if infixOf "localhost:8080".data (pyLower url) then
        "\n\n注意: リクエストURLがlocalhost:8080になっています。Difyのプロバイダー設定で、正しいWordPressサイトURL（例: https://your-site.com）を設定してください。".data
      else []
    .error status (htmlErrorHint body ++ " リクエストURL: ".data ++ url ++ additional_hint) body
  else if jsonOk then .success
  else .error status ("WordPress APIのレスポンスをJSONとして解析できませんでした。".data) body

/-! ### Secret redactor (tools/http_client.py `_sanitize_for_log` lines 25-40;
provider/http_client.py `_sanitize_for_log` lines 31-49).

Python's `re.sub` is embedded one rule at a time as a left-to-right,
non-overlapping scanner.  For `r'Basic\s+[A-Za-z0-9+/=]{20,}'` (and the
`Bearer` twin) greediness is forced: the three character classes are
pairwise disjoint at the boundaries, so a match at a position exists iff
the case-insensitive literal is followed by at least one whitespace and
then at least 20 base64-ish characters, and `re.sub` replaces from every
leftmost such position, resuming after the replaced text.  For
`r'[A-Za-z0-9]{32,}'` the leftmost greedy match is exactly a maximal
alphanumeric run of length ≥ 32.  For the provider's quoted-email rule the
quote, local-part, `@`, domain classes are likewise boundary-disjoint. -/

/-- Replacement tail `***`. -/
def star3 : List Char := ['*', '*', '*']

/-- Case-insensitive character comparison (`re.IGNORECASE`, ASCII). -/
def ciEqCh (a b : Char) : Bool :=
  a.toLower == b.toLower

/-- Case-insensitive literal test at the head of `s`. -/
def startsWithCI : List Char → List Char → Bool
  | [], _ => true
  | _ :: _, [] => false
  | w :: ws, c :: cs => ciEqCh c w && startsWithCI ws cs

/-- Length of the leftmost-greedy match of `word` + `\s+` + `[b64]{20,}`
at the head of `s`; `0` means no match (every real match has length
≥ `word.length + 21`). -/
def matchWordLen (word : List Char) (s : List Char) : Nat :=
  if startsWithCI word s then
    if ((s.drop word.length).takeWhile isPyWsCh).length = 0 then 0
    else
      if 20 ≤ (((s.drop word.length).drop
          ((s.drop word.length).takeWhile isPyWsCh).length).takeWhile isB64Ch).length then
        word.length + ((s.drop word.length).takeWhile isPyWsCh).length +
          (((s.drop word.length).drop
            ((s.drop word.length).takeWhile isPyWsCh).length).takeWhile isB64Ch).length
      else 0
  else 0

/-- Scanner for rule 1 of `_sanitize_for_log`: replace every match of
`word` (case-insensitively) + whitespace + 20-or-more base64 characters
with `cap ++ " ***"`, resuming after the match. -/
def maskWord (word cap : List Char) : List Char → List Char
  | [] => []
  | c :: cs =>
    if matchWordLen word (c :: cs) = 0 then c :: maskWord word cap cs
    else (cap ++ ' ' :: star3) ++ maskWord word cap ((c :: cs).drop (matchWordLen word (c :: cs)))
  termination_by s => s.length
  decreasing_by
  · simp
  · simp only [List.length_drop]
    rename_i h
    simp only [List.length_cons]
    omega

/-- Scanner for rule 2 of `_sanitize_for_log`: replace every maximal
alphanumeric run of length ≥ 32 with `***`. -/
def maskRuns : List Char → List Char
  | [] => []
  | c :: cs =>
    if isAlnumCh c then
      (if 32 ≤ ((c :: cs).takeWhile isAlnumCh).length then star3
       else (c :: cs).takeWhile isAlnumCh) ++ maskRuns ((c :: cs).dropWhile isAlnumCh)
    else c :: maskRuns cs
  termination_by s => s.length
  decreasing_by
  · rename_i h
    rw [List.dropWhile_cons_of_pos h]
    exact Nat.lt_succ_of_le ((List.dropWhile_suffix isAlnumCh).length_le)
  · simp

/-- Local-part class `[a-zA-Z0-9._+-]` of the provider's email rule. -/
def isLocalCh (c : Char) : Bool :=
  isAlnumCh c || c == '.' || c == '_' || c == '+' || c == '-'

/-- Domain class `[a-zA-Z0-9.-]` of the provider's email rule. -/
def isDomainCh (c : Char) : Bool :=
  isAlnumCh c || c == '.' || c == '-'

/-- Quote class `["']` of the provider's email rule. -/
def isQuoteCh (c : Char) : Bool :=
  c == '"' || c == '\''

/-- Length of the match of `["']([a-zA-Z0-9._+-]+@[a-zA-Z0-9.-]+)["']` at
the head of the list; `0` means no match (every real match has length
≥ 5). -/
def matchEmailLen : List Char → Nat
  | [] => 0
  | q :: rest =>
    if isQuoteCh q then
      let loc := rest.takeWhile isLocalCh
      if loc = [] then 0
      else
        match rest.drop loc.length with
        | '@' :: rest2 =>
          let dom := rest2.takeWhile isDomainCh
          if dom = [] then 0
          else
            match rest2.drop dom.length with
            | q2 :: _ => if isQuoteCh q2 then 1 + loc.length + 1 + dom.length + 1 else 0
            | [] => 0
        | _ => 0
    else 0

/-- Scanner for rule 3 of the provider's `_sanitize_for_log`: rewrite every
quoted email to the same email in double quotes (`r'"\1"'` keeps the
group, so only the two quote characters can change). -/
def maskEmail : List Char → List Char
  | [] => []
  | c :: cs =>
    if matchEmailLen (c :: cs) = 0 then c :: maskEmail cs
    else
      '"' :: (((c :: cs).take (matchEmailLen (c :: cs))).drop 1).dropLast ++
        '"' :: maskEmail ((c :: cs).drop (matchEmailLen (c :: cs)))
  termination_by s => s.length
  decreasing_by
  · simp
  · simp only [List.length_drop]
    rename_i h
    simp only [List.length_cons]
    omega

/-- Truncation suffix appended when the sanitised text exceeds 200
characters. -/
def truncSuffix : List Char := "... (truncated)".data

/-- Final truncation step of `_sanitize_for_log`
(`_MAX_LOG_BODY_LENGTH = 200`). -/
def truncateLog (s : List Char) : List Char :=
  if 200 < s.length then s.take 200 ++ truncSuffix else s

/-- Character-level effect of the email rule: a character is either kept
or is a quote character rewritten to `"`. -/
def charEquiv (a b : Char) : Prop :=
  b = a ∨ (isQuoteCh a = true ∧ b = '"')

/-- Lower-case `basic` literal of the tools rule 1. -/
def basicWord : List Char := "basic".data

/-- Replacement capitalisation `Basic` of the tools rule 1. -/
def basicCap : List Char := "Basic".data

/-- Lower-case `bearer` literal of the provider rule 1. -/
def bearerWord : List Char := "bearer".data

/-- Replacement capitalisation `Bearer` of the provider rule 1. -/
def bearerCap : List Char := "Bearer".data

/-- Embeds `_sanitize_for_log` of tools/http_client.py (lines 25-40):
empty text returned as is, else mask `Basic` credentials, mask long
alphanumeric runs, truncate to 200 characters. -/
def sanitize_for_log_tools (text : List Char) : List Char :=
  if text = [] then text
  else truncateLog (maskRuns (maskWord basicWord basicCap text))

/-- Embeds `_sanitize_for_log` of provider/http_client.py (lines 31-49):
empty text returned as is, else mask `Bearer` tokens, mask long
alphanumeric runs, normalise quoted emails, truncate to 200 characters. -/
def sanitize_for_log_provider (text : List Char) : List Char :=
  if text = [] then text
  else truncateLog (maskEmail (maskRuns (maskWord bearerWord bearerCap text)))

/-- One match of the `word`-credential pattern: the case-insensitive
literal, at least one whitespace, exactly 20 base64-ish characters (a
witness prefix of the `{20,}` group). -/
def IsWordMatch (word m : List Char) : Prop :=
  ∃ u v w, m = u ++ v ++ w ∧ List.Forall₂ (fun a b => ciEqCh a b = true) u word ∧
    v ≠ [] ∧ (∀ c ∈ v, isPyWsCh c = true) ∧ w.length = 20 ∧ (∀ c ∈ w, isB64Ch c = true)

/-- The pattern occurs somewhere in `s`. -/
def HasWordMatch (word s : List Char) : Prop :=
  ∃ m, m <:+: s ∧ IsWordMatch word m

/-- The pattern occurs at the head of `t`. -/
def StartsWordMatch (word t : List Char) : Prop :=
  ∃ m, m <+: t ∧ IsWordMatch word m

/-- No alphanumeric run of length 32 or more occurs in `s`. -/
def NoRun32 (s : List Char) : Prop :=
  ∀ m, m <:+: s → (∀ c ∈ m, isAlnumCh c = true) → m.length ≤ 31

/-- Well-formedness of a masked word: head letter not case-equivalent to
any later letter, all letters ASCII, capitalised replacement spelling the
same word case-insensitively. -/
def GoodWord : List Char → List Char → Prop
  | [], _ => False
  | w0 :: wrest, cap =>
    isAsciiAlphaCh w0 = true ∧ (∀ c ∈ wrest, isAsciiAlphaCh c = true) ∧
    (∀ c ∈ wrest, ciEqCh c w0 = false) ∧
    List.Forall₂ (fun a b => ciEqCh a b = true) cap (w0 :: wrest)

/-! ## General helper lemmas -/

theorem isSuffixOf_iff_suffix {l₁ l₂ : List Char} : l₁.isSuffixOf l₂ ↔ l₁ <:+ l₂ := by
  rw [List.isSuffixOf]
  exact List.isPrefixOf_iff_prefix.trans
    ⟨fun h => by simpa using h.reverse, fun h => by simpa using h.reverse⟩

theorem pyStrip_eq_nil_all_ws {s : List Char} (h : pyStrip s = []) :
    ∀ c ∈ s, isPyWsCh c = true := by
  unfold pyStrip at h
  rw [List.reverse_eq_nil_iff] at h
  have h2 : ∀ c ∈ (s.dropWhile isPyWsCh).reverse, isPyWsCh c = true :=
    List.dropWhile_eq_nil_iff.mp h
  intro c hc
  have hs : c ∈ s.takeWhile isPyWsCh ++ s.dropWhile isPyWsCh := by
    rw [List.takeWhile_append_dropWhile]; exact hc
  rcases List.mem_append.mp hs with h3 | h3
  · exact List.mem_takeWhile_imp h3
  · exact h2 c (List.mem_reverse.mpr h3)

theorem pyStrip_ne_nil_of_mem {s : List Char} {c : Char}
    (hc : c ∈ s) (hw : isPyWsCh c = false) : pyStrip s ≠ [] := by
  intro h
  rw [pyStrip_eq_nil_all_ws h c hc] at hw
  cases hw

theorem rstripSlash_eq_self {s : List Char} {c : Char}
    (h : s.getLast? = some c) (hc : (c == '/') = false) : rstripSlash s = s := by
  unfold rstripSlash
  rw [← List.head?_reverse] at h
  cases hr : s.reverse with
  | nil => rw [hr] at h; cases h
  | cons d t =>
    rw [hr] at h
    have hd : d = c := by simpa using h
    subst hd
    rw [List.dropWhile_cons_of_neg (by simp [hc]), ← hr, List.reverse_reverse]

theorem getLast?_of_suffix {l s : List Char} (h : l <:+ s) (hl : l ≠ []) :
    s.getLast? = l.getLast? := by
  obtain ⟨t, rfl⟩ := h
  exact List.getLast?_append_of_ne_nil t hl

/-! ## Character-class lemmas -/

theorem char_eq_of_toNat {a b : Char} (h : a.toNat = b.toNat) : a = b := by
  rw [Char.ext_iff]
  exact UInt32.toNat.inj h

theorem char_toNat_ofNat {n : Nat} (h : n.isValidChar) : (Char.ofNat n).toNat = n := by
  rw [Char.ofNat, dif_pos h]
  rfl

theorem alpha_iff_toNat {c : Char} :
    isAsciiAlphaCh c = true ↔
      (65 ≤ c.toNat ∧ c.toNat ≤ 90) ∨ (97 ≤ c.toNat ∧ c.toNat ≤ 122) := by
  rw [isAsciiAlphaCh]
  simp only [Bool.or_eq_true, Bool.and_eq_true, decide_eq_true_eq]
  exact Iff.rfl

theorem toLower_toNat_upper {c : Char} (h1 : 65 ≤ c.toNat) (h2 : c.toNat ≤ 90) :
    c.toLower.toNat = c.toNat + 32 := by
  rw [Char.toLower, if_pos ⟨h1, h2⟩, char_toNat_ofNat (Or.inl (by omega))]

theorem toLower_eq_self {c : Char} (h : ¬(65 ≤ c.toNat ∧ c.toNat ≤ 90)) :
    c.toLower = c := by
  rw [Char.toLower, if_neg h]

theorem alpha_toLower_range {c : Char} (h : isAsciiAlphaCh c = true) :
    97 ≤ c.toLower.toNat ∧ c.toLower.toNat ≤ 122 := by
  rcases alpha_iff_toNat.mp h with ⟨h1, h2⟩ | ⟨h1, h2⟩
  · rw [toLower_toNat_upper h1 h2]
    omega
  · rw [toLower_eq_self (by omega)]
    omega

theorem alpha_of_toLower_range {c : Char} (h1 : 97 ≤ c.toLower.toNat)
    (h2 : c.toLower.toNat ≤ 122) : isAsciiAlphaCh c = true := by
  by_cases hu : 65 ≤ c.toNat ∧ c.toNat ≤ 90
  · exact alpha_iff_toNat.mpr (Or.inl hu)
  · rw [toLower_eq_self hu] at h1 h2
    exact alpha_iff_toNat.mpr (Or.inr ⟨h1, h2⟩)

theorem ciEqCh_iff {a b : Char} : ciEqCh a b = true ↔ a.toLower = b.toLower := by
  rw [ciEqCh]
  exact beq_iff_eq

theorem ciEqCh_refl (a : Char) : ciEqCh a a = true :=
  ciEqCh_iff.mpr rfl

theorem ciEqCh_symm {a b : Char} (h : ciEqCh a b = true) : ciEqCh b a = true :=
  ciEqCh_iff.mpr (ciEqCh_iff.mp h).symm

theorem ciEqCh_trans {a b c : Char} (h1 : ciEqCh a b = true)
    (h2 : ciEqCh b c = true) : ciEqCh a c = true :=
  ciEqCh_iff.mpr ((ciEqCh_iff.mp h1).trans (ciEqCh_iff.mp h2))

theorem alpha_of_ciEq {a b : Char} (h : ciEqCh a b = true)
    (hb : isAsciiAlphaCh b = true) : isAsciiAlphaCh a = true := by
  have hr := alpha_toLower_range hb
  rw [← ciEqCh_iff.mp h] at hr
  exact alpha_of_toLower_range hr.1 hr.2

theorem ciEq_false_of_nonalpha {a b : Char} (hb : isAsciiAlphaCh b = true)
    (ha : isAsciiAlphaCh a = false) : ciEqCh a b = false := by
  by_contra h
  rw [Bool.not_eq_false] at h
  rw [alpha_of_ciEq h hb] at ha
  cases ha

theorem isPyWsCh_cases {c : Char} (h : isPyWsCh c = true) :
    c = ' ' ∨ c = '\t' ∨ c = '\n' ∨ c = '\r' ∨ c = '\x0b' ∨ c = '\x0c' ∨
    c = '\x1c' ∨ c = '\x1d' ∨ c = '\x1e' ∨ c = '\x1f' ∨ c = '\x85' ∨
    c = '\xa0' ∨ c = '\u2028' ∨ c = '\u2029' ∨ c = '\u3000' := by
  rw [isPyWsCh] at h
  simp only [Bool.or_eq_true, beq_iff_eq] at h
  tauto

theorem ws_not_alpha {c : Char} (h : isPyWsCh c = true) : isAsciiAlphaCh c = false := by
  rcases isPyWsCh_cases h with rfl|rfl|rfl|rfl|rfl|rfl|rfl|rfl|rfl|rfl|rfl|rfl|rfl|rfl|rfl <;>
    decide

theorem ws_not_alnum {c : Char} (h : isPyWsCh c = true) : isAlnumCh c = false := by
  rcases isPyWsCh_cases h with rfl|rfl|rfl|rfl|rfl|rfl|rfl|rfl|rfl|rfl|rfl|rfl|rfl|rfl|rfl <;>
    decide

theorem ws_not_b64 {c : Char} (h : isPyWsCh c = true) : isB64Ch c = false := by
  rcases isPyWsCh_cases h with rfl|rfl|rfl|rfl|rfl|rfl|rfl|rfl|rfl|rfl|rfl|rfl|rfl|rfl|rfl <;>
    decide

theorem alpha_not_ws {c : Char} (h : isAsciiAlphaCh c = true) : isPyWsCh c = false := by
  by_contra hw
  rw [Bool.not_eq_false] at hw
  rw [ws_not_alpha hw] at h
  cases h

theorem b64_not_ws {c : Char} (h : isB64Ch c = true) : isPyWsCh c = false := by
  by_contra hw
  rw [Bool.not_eq_false] at hw
  rw [ws_not_b64 hw] at h
  cases h

theorem alpha_alnum {c : Char} (h : isAsciiAlphaCh c = true) : isAlnumCh c = true := by
  rw [isAlnumCh, h, Bool.true_or]

theorem alnum_b64 {c : Char} (h : isAlnumCh c = true) : isB64Ch c = true := by
  rw [isB64Ch, h, Bool.true_or, Bool.true_or, Bool.true_or]

theorem alpha_b64 {c : Char} (h : isAsciiAlphaCh c = true) : isB64Ch c = true :=
  alnum_b64 (alpha_alnum h)

/-! ## Scanner equations and match bridges -/

theorem maskWord_nil (word cap : List Char) : maskWord word cap [] = [] := by
  rw [maskWord]

theorem maskWord_cons_zero {word : List Char} (cap : List Char) {c : Char} {cs : List Char}
    (h : matchWordLen word (c :: cs) = 0) :
    maskWord word cap (c :: cs) = c :: maskWord word cap cs := by
  rw [maskWord, if_pos h]

theorem maskWord_cons_pos {word : List Char} (cap : List Char) {c : Char} {cs : List Char}
    (h : matchWordLen word (c :: cs) ≠ 0) :
    maskWord word cap (c :: cs) =
      (cap ++ ' ' :: star3) ++
        maskWord word cap ((c :: cs).drop (matchWordLen word (c :: cs))) := by
  rw [maskWord, if_neg h]

theorem maskRuns_nil : maskRuns [] = [] := by
  rw [maskRuns]

theorem maskRuns_cons_alnum {c : Char} {cs : List Char} (h : isAlnumCh c = true) :
    maskRuns (c :: cs) =
      (if 32 ≤ ((c :: cs).takeWhile isAlnumCh).length then star3
       else (c :: cs).takeWhile isAlnumCh) ++ maskRuns ((c :: cs).dropWhile isAlnumCh) := by
  rw [maskRuns, if_pos h]

theorem maskRuns_cons_not {c : Char} {cs : List Char} (h : ¬ isAlnumCh c = true) :
    maskRuns (c :: cs) = c :: maskRuns cs := by
  rw [maskRuns, if_neg h]

theorem maskEmail_nil : maskEmail [] = [] := by
  rw [maskEmail]

theorem maskEmail_cons_zero {c : Char} {cs : List Char} (h : matchEmailLen (c :: cs) = 0) :
    maskEmail (c :: cs) = c :: maskEmail cs := by
  rw [maskEmail, if_pos h]

theorem maskEmail_cons_pos {c : Char} {cs : List Char} (h : matchEmailLen (c :: cs) ≠ 0) :
    maskEmail (c :: cs) =
      '"' :: (((c :: cs).take (matchEmailLen (c :: cs))).drop 1).dropLast ++
        '"' :: maskEmail ((c :: cs).drop (matchEmailLen (c :: cs))) := by
  rw [maskEmail, if_neg h]

theorem startsWithCI_iff {word s : List Char} :
    startsWithCI word s = true ↔
      ∃ u t, s = u ++ t ∧ List.Forall₂ (fun a b : Char => ciEqCh a b = true) u word := by
  induction word generalizing s with
  | nil =>
    rw [startsWithCI]
    constructor
    · intro _
      exact ⟨[], s, rfl, List.Forall₂.nil⟩
    · intro _
      rfl
  | cons w ws ih =>
    cases s with
    | nil =>
      rw [startsWithCI]
      constructor
      · intro h
        cases h
      · rintro ⟨u, t, hs, hf⟩
        cases hf with
        | cons _ _ => cases hs
    | cons c cs =>
      rw [startsWithCI, Bool.and_eq_true, ih]
      constructor
      · rintro ⟨hc, u, t, hs, hf⟩
        exact ⟨c :: u, t, by rw [hs, List.cons_append], List.Forall₂.cons hc hf⟩
      · rintro ⟨u, t, hs, hf⟩
        cases hf with
        | cons ha hf' =>
          rw [List.cons_append] at hs
          injection hs with h1 h2
          subst h1
          exact ⟨ha, _, t, h2, hf'⟩

theorem drop_takeWhile_length {p : Char → Bool} (l : List Char) :
    l.drop (l.takeWhile p).length = l.dropWhile p := by
  induction l with
  | nil => rfl
  | cons c cs ih =>
    by_cases hc : p c
    · rw [List.takeWhile_cons_of_pos hc, List.dropWhile_cons_of_pos hc,
        List.length_cons, List.drop_succ_cons, ih]
    · rw [List.takeWhile_cons_of_neg hc, List.dropWhile_cons_of_neg hc,
        List.length_nil, List.drop_zero]

theorem startsWordMatch_of_matchWordLen {word s : List Char}
    (h : matchWordLen word s ≠ 0) : StartsWordMatch word s := by
  rw [matchWordLen] at h
  by_cases hsw : startsWithCI word s
  · rw [if_pos hsw] at h
    by_cases hws : ((s.drop word.length).takeWhile isPyWsCh).length = 0
    · rw [if_pos hws] at h
      exact absurd rfl h
    · rw [if_neg hws] at h
      by_cases hb :
          20 ≤ (((s.drop word.length).drop
            ((s.drop word.length).takeWhile isPyWsCh).length).takeWhile isB64Ch).length
      · obtain ⟨u, t, hs, hf⟩ := startsWithCI_iff.mp hsw
        have hul : u.length = word.length := hf.length_eq
        have ht : t = s.drop word.length := by
          rw [hs, ← hul, List.drop_left]
        rw [← ht] at hws hb
        rw [drop_takeWhile_length] at hb
        have h1 : t = t.takeWhile isPyWsCh ++ t.dropWhile isPyWsCh :=
          (List.takeWhile_append_dropWhile _ _).symm
        have h3 : t.dropWhile isPyWsCh =
            (t.dropWhile isPyWsCh).takeWhile isB64Ch ++
              (t.dropWhile isPyWsCh).dropWhile isB64Ch :=
          (List.takeWhile_append_dropWhile _ _).symm
        have h4 : (t.dropWhile isPyWsCh).takeWhile isB64Ch =
            ((t.dropWhile isPyWsCh).takeWhile isB64Ch).take 20 ++
              ((t.dropWhile isPyWsCh).takeWhile isB64Ch).drop 20 :=
          (List.take_append_drop _ _).symm
        refine ⟨u ++ t.takeWhile isPyWsCh ++
            ((t.dropWhile isPyWsCh).takeWhile isB64Ch).take 20,
          ⟨((t.dropWhile isPyWsCh).takeWhile isB64Ch).drop 20 ++
            (t.dropWhile isPyWsCh).dropWhile isB64Ch, ?_⟩,
          u, _, _, rfl, hf, ?_, ?_, ?_, ?_⟩
        · rw [hs]
          conv_rhs => rw [h1, h3, h4]
          simp only [List.append_assoc]
        · intro hveq
          exact hws (by rw [hveq]; rfl)
        · intro c hc
          exact List.mem_takeWhile_imp hc
        · rw [List.length_take]
          omega
        · intro c hc
          exact List.mem_takeWhile_imp (List.take_subset 20 _ hc)
      · rw [if_neg hb] at h
        exact absurd rfl h
  · rw [if_neg hsw] at h
    exact absurd rfl h

theorem matchWordLen_ne_zero_of_starts {word s : List Char}
    (h : StartsWordMatch word s) : matchWordLen word s ≠ 0 := by
  obtain ⟨m, ⟨r0, hm⟩, u, v, w, hmw, hf, hvne0, hvws, hwl, hwb⟩ := h
  subst hmw
  have hs : s = u ++ (v ++ (w ++ r0)) := by
    rw [← hm]
    simp [List.append_assoc]
  have hsw : startsWithCI word s = true :=
    startsWithCI_iff.mpr ⟨u, v ++ (w ++ r0), hs, hf⟩
  have hul : u.length = word.length := hf.length_eq
  have hrest : s.drop word.length = v ++ (w ++ r0) := by
    rw [hs, ← hul, List.drop_left]
  obtain ⟨w0, w', rfl⟩ : ∃ w0 w', w = w0 :: w' := by
    cases w with
    | nil => cases hwl
    | cons w0 w' => exact ⟨w0, w', rfl⟩
  have hw0 : ¬ isPyWsCh w0 = true := by
    rw [b64_not_ws (hwb w0 (List.mem_cons_self w0 w'))]
    exact Bool.false_ne_true
  have htwv : (s.drop word.length).takeWhile isPyWsCh = v := by
    rw [hrest, List.takeWhile_append_of_pos hvws, List.cons_append,
      List.takeWhile_cons_of_neg hw0, List.append_nil]
  have hdwv : (s.drop word.length).drop v.length = (w0 :: w') ++ r0 := by
    rw [hrest, List.drop_left]
  rw [matchWordLen, if_pos hsw, htwv]
  have hvne : v.length ≠ 0 := fun h0 => hvne0 (List.length_eq_zero.mp h0)
  rw [if_neg hvne, hdwv]
  have hb : 20 ≤ (((w0 :: w') ++ r0).takeWhile isB64Ch).length := by
    rw [List.takeWhile_append_of_pos hwb, List.length_append, ← hwl]
    omega
  rw [if_pos hb]
  omega

theorem hasWordMatch_mono {word t s : List Char} (h : t <:+: s)
    (hm : HasWordMatch word t) : HasWordMatch word s := by
  obtain ⟨m, hinf, hmatch⟩ := hm
  exact ⟨m, hinf.trans h, hmatch⟩

theorem noRun32_mono {t s : List Char} (h : t <:+: s) (hn : NoRun32 s) : NoRun32 t :=
  fun m hm ha => hn m (hm.trans h) ha

theorem maskWord_eq_self_of_suffix_zero {word cap s : List Char}
    (h : ∀ t, t <:+ s → matchWordLen word t = 0) : maskWord word cap s = s := by
  induction s with
  | nil => exact maskWord_nil word cap
  | cons c cs ih =>
    rw [maskWord_cons_zero cap (h (c :: cs) (List.suffix_refl _)),
      ih fun t ht => h t (ht.trans (List.suffix_cons c cs))]

theorem maskWord_eq_self_of_not_has {word cap s : List Char}
    (h : ¬ HasWordMatch word s) : maskWord word cap s = s := by
  refine maskWord_eq_self_of_suffix_zero ?_
  intro t ht
  by_contra h0
  obtain ⟨m, hp, hmatch⟩ := startsWordMatch_of_matchWordLen h0
  exact h ⟨m, hp.isInfix.trans ht.isInfix, hmatch⟩

theorem maskWord_eq_self_of_tails_check {word cap s : List Char}
    (h : s.tails.all (fun t => matchWordLen word t == 0) = true) :
    maskWord word cap s = s := by
  refine maskWord_eq_self_of_suffix_zero ?_
  intro t ht
  have := List.all_eq_true.mp h t ((List.mem_tails _ _).mpr ht)
  exact beq_iff_eq.mp this

theorem maskRuns_eq_self_of_noRun32 {s : List Char} (h : NoRun32 s) :
    maskRuns s = s := by
  have main : ∀ n (s : List Char), s.length ≤ n → NoRun32 s → maskRuns s = s := by
    intro n
    induction n with
    | zero =>
      intro s hl _
      rw [List.length_eq_zero.mp (Nat.le_zero.mp hl), maskRuns_nil]
    | succ k ih =>
      intro s hl hn
      cases s with
      | nil => exact maskRuns_nil
      | cons c cs =>
        by_cases hc : isAlnumCh c = true
        · have hrun : ((c :: cs).takeWhile isAlnumCh).length ≤ 31 := by
            refine hn _ (List.takeWhile_prefix isAlnumCh).isInfix ?_
            intro x hx
            exact List.mem_takeWhile_imp hx
          rw [maskRuns_cons_alnum hc, if_neg (by omega)]
          have hdrop : (c :: cs).dropWhile isAlnumCh = cs.dropWhile isAlnumCh := by
            rw [List.dropWhile_cons_of_pos hc]
          rw [hdrop, ih (cs.dropWhile isAlnumCh)
            (Nat.le_trans (List.dropWhile_suffix isAlnumCh).length_le
              (Nat.le_of_succ_le_succ hl))
            (noRun32_mono ((List.dropWhile_suffix isAlnumCh).isInfix.trans
              (List.suffix_cons c cs).isInfix) hn)]
          conv_rhs => rw [← List.takeWhile_append_dropWhile (p := isAlnumCh) (l := c :: cs)]
          rw [hdrop]
        · rw [maskRuns_cons_not hc,
            ih cs (Nat.le_of_succ_le_succ hl)
              (noRun32_mono (List.suffix_cons c cs).isInfix hn)]
  exact main s.length s (Nat.le_refl _) h

/-! ## Decomposition helpers for scanning proofs -/

theorem prefix_append_cases {p A B : List Char} (h : p <+: A ++ B) :
    p <+: A ∨ ∃ q, p = A ++ q ∧ q <+: B := by
  by_cases hl : p.length ≤ A.length
  · exact Or.inl (List.prefix_of_prefix_length_le h (List.prefix_append A B) hl)
  · obtain ⟨q, hq⟩ := List.prefix_of_prefix_length_le (List.prefix_append A B) h
      (Nat.le_of_lt (Nat.lt_of_not_le hl))
  -- hq : A ++ q = p
    obtain ⟨t, ht⟩ := h
    rw [← hq, List.append_assoc] at ht
    exact Or.inr ⟨q, hq.symm, t, (List.append_cancel_left ht : q ++ t = B)⟩

theorem infix_append_cases {m A B : List Char} (h : m <:+: A ++ B) :
    m <:+: B ∨ ∃ g, g <:+ A ∧ g ≠ [] ∧ m <+: g ++ B := by
  obtain ⟨l, r, hlr⟩ := h
  have hlp : l <+: A ++ B := ⟨m ++ r, by rw [← List.append_assoc, hlr]⟩
  by_cases hl : A.length ≤ l.length
  · obtain ⟨l', hl'⟩ := List.prefix_of_prefix_length_le (List.prefix_append A B) hlp hl
    left
    refine ⟨l', r, ?_⟩
    have : A ++ (l' ++ (m ++ r)) = A ++ B := by
      rw [← List.append_assoc, hl', ← List.append_assoc, hlr]
    have h2 := List.append_cancel_left this
    rw [← List.append_assoc] at h2
    exact h2
  · obtain ⟨g, hg⟩ := List.prefix_of_prefix_length_le hlp (List.prefix_append A B)
      (Nat.le_of_lt (Nat.lt_of_not_le hl))
    right
    refine ⟨g, ⟨l, hg⟩, ?_, ?_⟩
    · intro hge
      rw [hge, List.append_nil] at hg
      exact hl (Nat.le_of_eq (congrArg List.length hg.symm))
    · refine ⟨r, ?_⟩
      have : l ++ (m ++ r) = l ++ (g ++ B) := by
        rw [← List.append_assoc, hlr, ← List.append_assoc, hg]
      exact List.append_cancel_left this

theorem prefix_nil_of_head_not {p : Char → Bool} {m : List Char} {d : Char}
    {ds : List Char} (hp : m <+: d :: ds) (hm : ∀ c ∈ m, p c = true)
    (hd : p d = false) : m = [] := by
  cases m with
  | nil => rfl
  | cons a as =>
    obtain ⟨t, ht⟩ := hp
    rw [List.cons_append] at ht
    injection ht with h1 _
    rw [← h1, hm a (List.mem_cons_self a as)] at hd
    cases hd

theorem prefix_of_blocked_tail {p : Char → Bool} {m g T : List Char}
    (h : m <+: g ++ T) (hm : ∀ c ∈ m, p c = true)
    (hT : ∀ d ds, T = d :: ds → p d = false) : m <+: g := by
  rcases prefix_append_cases h with h2 | ⟨q, rfl, hq⟩
  · exact h2
  · cases hT2 : T with
    | nil =>
      rw [hT2] at hq
      rw [List.prefix_nil.mp hq, List.append_nil]
    | cons d ds =>
      rw [hT2] at hq
      have : q = [] := prefix_nil_of_head_not hq
        (fun c hc => hm c (List.mem_append.mpr (Or.inr hc))) (hT d ds hT2)
      rw [this, List.append_nil]

theorem mem_star3 {c : Char} (h : c ∈ star3) : c = '*' := by
  rcases h with _ | ⟨_, _ | ⟨_, h⟩⟩
  · rfl
  · rfl
  · rcases h with _ | ⟨_, h⟩
    · rfl
    · cases h

theorem suffix_star3_head {g : List Char} {x : Char} {g' : List Char}
    (hg : g <:+ star3) (hx : g = x :: g') : x = '*' :=
  mem_star3 (hg.subset (hx ▸ List.mem_cons_self x g'))

/-! ## maskRuns lemmas -/

theorem takeWhile_all_true {p : Char → Bool} (l : List Char) :
    ∀ c ∈ l.takeWhile p, p c = true :=
  fun _ hc => List.mem_takeWhile_imp hc

theorem bool_eq_false_of_ne_true {b : Bool} (h : ¬ b = true) : b = false := by
  cases b
  · rfl
  · exact absurd rfl h

theorem dropWhile_head_false {p : Char → Bool} {l : List Char} {d : Char}
    {ds : List Char} (h : l.dropWhile p = d :: ds) : p d = false := by
  induction l with
  | nil => cases h
  | cons c cs ih =>
    by_cases hc : p c
    · rw [List.dropWhile_cons_of_pos hc] at h
      exact ih h
    · rw [List.dropWhile_cons_of_neg hc] at h
      injection h with h1 _
      rw [← h1]
      exact bool_eq_false_of_ne_true hc

theorem noRun32_nil : NoRun32 [] := by
  intro m hm _
  rw [List.eq_nil_of_infix_nil hm]
  simp

theorem noRun32_maskRuns (s : List Char) : NoRun32 (maskRuns s) := by
  have main : ∀ n (s : List Char), s.length ≤ n → NoRun32 (maskRuns s) := by
    intro n
    induction n with
    | zero =>
      intro s hl
      rw [List.length_eq_zero.mp (Nat.le_zero.mp hl), maskRuns_nil]
      exact noRun32_nil
    | succ k ih =>
      intro s hl
      cases s with
      | nil =>
        rw [maskRuns_nil]
        exact noRun32_nil
      | cons c cs =>
        by_cases hc : isAlnumCh c = true
        · rw [maskRuns_cons_alnum hc]
          have hrest : ((c :: cs).dropWhile isAlnumCh).length ≤ k := by
            rw [List.dropWhile_cons_of_pos hc]
            exact Nat.le_trans (List.dropWhile_suffix isAlnumCh).length_le
              (Nat.le_of_succ_le_succ hl)
          have hT := ih _ hrest
          have hThead : ∀ d ds, maskRuns ((c :: cs).dropWhile isAlnumCh) = d :: ds →
              isAlnumCh d = false := by
            intro d ds hds
            cases hdw : (c :: cs).dropWhile isAlnumCh with
            | nil =>
              rw [hdw, maskRuns_nil] at hds
              cases hds
            | cons e es =>
              have he : isAlnumCh e = false := dropWhile_head_false hdw
              rw [hdw, maskRuns_cons_not (by rw [he]; exact Bool.false_ne_true)] at hds
              injection hds with h1 _
              rw [← h1]
              exact he
          intro m hm halnum
          rcases infix_append_cases hm with h2 | ⟨g, hg, hgne, hp⟩
          · exact hT m h2 halnum
          · have hmg := prefix_of_blocked_tail hp halnum hThead
            by_cases hlong : 32 ≤ ((c :: cs).takeWhile isAlnumCh).length
            · rw [if_pos hlong] at hg
              cases m with
              | nil => simp
              | cons a as =>
                obtain ⟨g', hg'⟩ : ∃ g', g = a :: g' := by
                  obtain ⟨t, ht⟩ := hmg
                  cases g with
                  | nil => cases ht
                  | cons x xs =>
                    rw [List.cons_append] at ht
                    injection ht with h1 _
                    exact ⟨xs, by rw [h1]⟩
                have ha := suffix_star3_head hg hg'
                have := halnum a (List.mem_cons_self a as)
                rw [ha] at this
                cases this
            · rw [if_neg hlong] at hg
              have : m.length ≤ g.length := hmg.length_le
              have : g.length ≤ ((c :: cs).takeWhile isAlnumCh).length := hg.length_le
              omega
        · rw [maskRuns_cons_not hc]
          have hT := ih cs (Nat.le_of_succ_le_succ hl)
          intro m hm halnum
          rcases infix_append_cases (A := [c]) hm with h2 | ⟨g, hg, hgne, hp⟩
          · exact hT m h2 halnum
          · have hgc : g = [c] := by
              cases g with
              | nil => exact absurd rfl hgne
              | cons x xs =>
                have hlen : (x :: xs).length ≤ 1 := by
                  have := hg.length_le
                  simpa using this
                have hxs : xs = [] := by
                  cases xs with
                  | nil => rfl
                  | cons y ys => simp at hlen
                subst hxs
                have hx : x ∈ [c] := hg.subset (List.mem_cons_self x [])
                have hxc : x = c := by simpa using hx
                rw [hxc]
            have : m = [] := by
              have hp2 : m <+: c :: maskRuns cs := by
                rw [hgc] at hp
                simpa using hp
              exact prefix_nil_of_head_not hp2 halnum (bool_eq_false_of_ne_true hc)
            rw [this]
            simp
  exact main s.length s (Nat.le_refl _)

theorem forall₂_mem_left {R : Char → Char → Prop} {l₁ l₂ : List Char}
    (h : List.Forall₂ R l₁ l₂) {a : Char} (ha : a ∈ l₁) : ∃ b ∈ l₂, R a b := by
  induction h with
  | nil => cases ha
  | cons hr _ ih =>
    rcases List.mem_cons.mp ha with rfl | ha'
    · exact ⟨_, List.mem_cons_self _ _, hr⟩
    · obtain ⟨b, hb, hrb⟩ := ih ha'
      exact ⟨b, List.mem_cons_of_mem _ hb, hrb⟩

theorem prefix_append_of_prefix {l q t : List Char} (h : q <+: t) :
    l ++ q <+: l ++ t := by
  obtain ⟨r, hr⟩ := h
  exact ⟨r, by rw [List.append_assoc, hr]⟩

theorem maskRuns_prefix_star_free {s : List Char} :
    ∀ p, p <+: maskRuns s → (∀ c ∈ p, ¬ c = '*') → p <+: s := by
  have main : ∀ n (s : List Char), s.length ≤ n →
      ∀ p, p <+: maskRuns s → (∀ c ∈ p, ¬ c = '*') → p <+: s := by
    intro n
    induction n with
    | zero =>
      intro s hl p hp _
      rw [List.length_eq_zero.mp (Nat.le_zero.mp hl), maskRuns_nil] at *
      exact hp
    | succ k ih =>
      intro s hl p hp hstar
      cases s with
      | nil =>
        rw [maskRuns_nil] at hp
        exact hp
      | cons c cs =>
        by_cases hc : isAlnumCh c = true
        · rw [maskRuns_cons_alnum hc] at hp
          have hdw : ((c :: cs).dropWhile isAlnumCh).length ≤ k := by
            rw [List.dropWhile_cons_of_pos hc]
            exact Nat.le_trans (List.dropWhile_suffix isAlnumCh).length_le
              (Nat.le_of_succ_le_succ hl)
          by_cases hlong : 32 ≤ ((c :: cs).takeWhile isAlnumCh).length
          · rw [if_pos hlong] at hp
            cases p with
            | nil => exact List.nil_prefix
            | cons a as =>
              obtain ⟨t, ht⟩ := hp
              rw [List.cons_append] at ht
              injection ht with h1 _
              exact absurd h1 (hstar a (List.mem_cons_self a as))
          · rw [if_neg hlong] at hp
            rcases prefix_append_cases hp with h2 | ⟨q, rfl, hq⟩
            · exact h2.trans (List.takeWhile_prefix isAlnumCh)
            · have hq2 : q <+: (c :: cs).dropWhile isAlnumCh :=
                ih _ hdw q hq
                  (fun x hx => hstar x (List.mem_append.mpr (Or.inr hx)))
              have := prefix_append_of_prefix (l := (c :: cs).takeWhile isAlnumCh) hq2
              rw [List.takeWhile_append_dropWhile] at this
              exact this
        · rw [maskRuns_cons_not hc] at hp
          cases p with
          | nil => exact List.nil_prefix
          | cons a as =>
            obtain ⟨t, ht⟩ := hp
            rw [List.cons_append] at ht
            injection ht with h1 h2
            subst h1
            have has : as <+: cs :=
              ih cs (Nat.le_of_succ_le_succ hl) as ⟨t, h2⟩
                (fun x hx => hstar x (List.mem_cons_of_mem a hx))
            obtain ⟨r, hr⟩ := has
            exact ⟨r, by rw [List.cons_append, hr]⟩
  exact main s.length s (Nat.le_refl _)

theorem maskRuns_infix_star_free {s : List Char} :
    ∀ m, m <:+: maskRuns s → (∀ c ∈ m, ¬ c = '*') → m <:+: s := by
  have main : ∀ n (s : List Char), s.length ≤ n →
      ∀ m, m <:+: maskRuns s → (∀ c ∈ m, ¬ c = '*') → m <:+: s := by
    intro n
    induction n with
    | zero =>
      intro s hl m hm _
      rw [List.length_eq_zero.mp (Nat.le_zero.mp hl), maskRuns_nil] at *
      exact hm
    | succ k ih =>
      intro s hl m hm hstar
      cases s with
      | nil =>
        rw [maskRuns_nil] at hm
        exact hm
      | cons c cs =>
        by_cases hc : isAlnumCh c = true
        · rw [maskRuns_cons_alnum hc] at hm
          have hdwlen : ((c :: cs).dropWhile isAlnumCh).length ≤ k := by
            rw [List.dropWhile_cons_of_pos hc]
            exact Nat.le_trans (List.dropWhile_suffix isAlnumCh).length_le
              (Nat.le_of_succ_le_succ hl)
          have hdwinf : (c :: cs).dropWhile isAlnumCh <:+: c :: cs :=
            (List.dropWhile_suffix isAlnumCh).isInfix
          rcases infix_append_cases hm with h2 | ⟨g, hg, hgne, hp⟩
          · exact (ih _ hdwlen m h2 hstar).trans hdwinf
          · by_cases hlong : 32 ≤ ((c :: cs).takeWhile isAlnumCh).length
            · rw [if_pos hlong] at hg
              cases m with
              | nil => exact List.nil_infix
              | cons a as =>
                obtain ⟨g', hg'⟩ : ∃ g', g = a :: g' := by
                  obtain ⟨t, ht⟩ := hp
                  cases g with
                  | nil => exact absurd rfl hgne
                  | cons x xs =>
                    rw [List.cons_append, List.cons_append] at ht
                    injection ht with h1 _
                    exact ⟨xs, by rw [h1]⟩
                have ha := suffix_star3_head hg hg'
                exact absurd ha (hstar a (List.mem_cons_self a as))
            · rw [if_neg hlong] at hg
              rcases prefix_append_cases hp with h2 | ⟨q, hmq, hq⟩
              · exact (h2.isInfix.trans hg.isInfix).trans
                  (List.takeWhile_prefix isAlnumCh).isInfix
              · have hq2 : q <+: (c :: cs).dropWhile isAlnumCh :=
                  maskRuns_prefix_star_free q hq
                    (fun x hx => hstar x (hmq ▸ List.mem_append.mpr (Or.inr hx)))
                obtain ⟨i, hi⟩ := hg
                obtain ⟨t, htt⟩ := hq2
                refine ⟨i, t, ?_⟩
                have : (c :: cs) = ((c :: cs).takeWhile isAlnumCh) ++
                    ((c :: cs).dropWhile isAlnumCh) :=
                  (List.takeWhile_append_dropWhile _ _).symm
                rw [this, ← hi, ← htt, hmq]
                simp [List.append_assoc]
        · rw [maskRuns_cons_not hc] at hm
          rcases infix_append_cases (A := [c]) hm with h2 | ⟨g, hg, hgne, hp⟩
          · exact (ih cs (Nat.le_of_succ_le_succ hl) m h2 hstar).trans
              (List.suffix_cons c cs).isInfix
          · rcases prefix_append_cases hp with h2 | ⟨q, hmq, hq⟩
            · exact h2.isInfix.trans (hg.isInfix.trans
                (⟨[], cs, rfl⟩ : [c] <:+: c :: cs))
            · have hq2 : q <+: cs :=
                maskRuns_prefix_star_free q hq
                  (fun x hx => hstar x (hmq ▸ List.mem_append.mpr (Or.inr hx)))
              obtain ⟨t, htt⟩ := hq2
              have hgc : g = [c] := by
                cases g with
                | nil => exact absurd rfl hgne
                | cons x xs =>
                  have hlen : (x :: xs).length ≤ 1 := by
                    have := hg.length_le
                    simpa using this
                  have hxs : xs = [] := by
                    cases xs with
                    | nil => rfl
                    | cons y ys => simp at hlen
                  subst hxs
                  have hx : x ∈ [c] := hg.subset (List.mem_cons_self x [])
                  have hxc : x = c := by simpa using hx
                  rw [hxc]
              refine ⟨[], t, ?_⟩
              rw [hmq, hgc, ← htt]
              simp
  exact main s.length s (Nat.le_refl _)

theorem goodWord_alpha {word cap : List Char} (h : GoodWord word cap) :
    ∀ c ∈ word, isAsciiAlphaCh c = true := by
  cases word with
  | nil => cases h
  | cons w0 wrest =>
    obtain ⟨h0, hrest, _, _⟩ := h
    intro c hc
    rcases List.mem_cons.mp hc with rfl | hc'
    · exact h0
    · exact hrest c hc'

theorem wordMatch_star_free {word cap m : List Char} (hgw : GoodWord word cap)
    (hm : IsWordMatch word m) : ∀ c ∈ m, ¬ c = '*' := by
  obtain ⟨u, v, w, rfl, hf, _, hvws, _, hwb⟩ := hm
  intro c hc
  rcases List.mem_append.mp hc with hc2 | hc2
  · rcases List.mem_append.mp hc2 with hc3 | hc3
    · obtain ⟨b, hb, hrb⟩ := forall₂_mem_left hf hc3
      have : isAsciiAlphaCh c = true := alpha_of_ciEq hrb (goodWord_alpha hgw b hb)
      intro rfl2
      rw [rfl2] at this
      cases this
    · intro rfl2
      have := hvws c hc3
      rw [rfl2] at this
      cases this
  · intro rfl2
    have := hwb c hc2
    rw [rfl2] at this
    cases this

theorem not_hasWordMatch_maskRuns {word cap s : List Char} (hgw : GoodWord word cap)
    (h : ¬ HasWordMatch word s) : ¬ HasWordMatch word (maskRuns s) := by
  rintro ⟨m, hinf, hmatch⟩
  exact h ⟨m, maskRuns_infix_star_free m hinf (wordMatch_star_free hgw hmatch), hmatch⟩

/-! ## Transport of word-credential matches through the scanner -/

theorem goodWord_destruct {word cap : List Char} (h : GoodWord word cap) :
    ∃ w0 wrest c0 ctail, word = w0 :: wrest ∧ cap = c0 :: ctail ∧
      isAsciiAlphaCh w0 = true ∧ (∀ c ∈ wrest, isAsciiAlphaCh c = true) ∧
      (∀ c ∈ wrest, ciEqCh c w0 = false) ∧ ciEqCh c0 w0 = true ∧
      List.Forall₂ (fun a b => ciEqCh a b = true) ctail wrest := by
  cases word with
  | nil => cases h
  | cons w0 wrest =>
    obtain ⟨h0, hrest, hnc, hcap⟩ := h
    cases hcap with
    | cons hc0 hctail => exact ⟨w0, wrest, _, _, rfl, rfl, h0, hrest, hnc, hc0, hctail⟩

theorem goodWord_forall₂ {word cap : List Char} (h : GoodWord word cap) :
    List.Forall₂ (fun a b => ciEqCh a b = true) cap word := by
  obtain ⟨w0, wrest, c0, ctail, rfl, rfl, _, _, _, hc0, hctail⟩ := goodWord_destruct h
  exact List.Forall₂.cons hc0 hctail

theorem wordMatch_ne_nil {word cap m : List Char} (hgw : GoodWord word cap)
    (hm : IsWordMatch word m) : m ≠ [] := by
  obtain ⟨u, v, w, rfl, hf, hvne, _, hwl, _⟩ := hm
  obtain ⟨w0, wrest, _, _, rfl, _⟩ := goodWord_destruct hgw
  cases hf with
  | cons _ _ => simp

theorem startsMatch_head_ci {word t : List Char} (hw : word ≠ [])
    (h : StartsWordMatch word t) :
    ∃ x xs w0 wrest, t = x :: xs ∧ word = w0 :: wrest ∧ ciEqCh x w0 = true := by
  obtain ⟨m, hp, u, v, w, rfl, hf, _, _, _, _⟩ := h
  cases word with
  | nil => exact absurd rfl hw
  | cons w0 wrest =>
    cases hf with
    | cons hr hf' =>
      rename_i a _ u' _
      obtain ⟨r, hr2⟩ := hp
      cases t with
      | nil => cases hr2
      | cons x xs =>
        simp only [List.cons_append, List.append_assoc] at hr2
        injection hr2 with h1 _
        exact ⟨x, xs, w0, wrest, rfl, rfl, h1 ▸ hr⟩

theorem prefix_cancel_left {l a b : List Char} (h : l ++ a <+: l ++ b) : a <+: b := by
  obtain ⟨t, ht⟩ := h
  rw [List.append_assoc] at ht
  exact ⟨t, List.append_cancel_left ht⟩

theorem no_startsMatch_repl {word cap X : List Char} (hgw : GoodWord word cap) :
    ¬ StartsWordMatch word ((cap ++ ' ' :: star3) ++ X) := by
  rintro ⟨m, hp, u, v, w, rfl, hf, hvne, hvws, hwl, hwb⟩
  have hul : u.length = word.length := hf.length_eq
  have hcl : cap.length = word.length := (goodWord_forall₂ hgw).length_eq
  have hup : u <+: (cap ++ ' ' :: star3) ++ X := by
    refine List.IsPrefix.trans ?_ hp
    rw [List.append_assoc]
    exact List.prefix_append u (v ++ w)
  have hcp : cap <+: (cap ++ ' ' :: star3) ++ X := by
    rw [List.append_assoc]
    exact List.prefix_append cap _
  have huc : u = cap := by
    have h1 := List.prefix_of_prefix_length_le hup hcp (by omega)
    exact h1.eq_of_length (by omega)
  subst huc
  obtain ⟨r, hr⟩ := hp
  have hr2 : v ++ (w ++ r) = ' ' :: (star3 ++ X) := by
    have hr' : u ++ (v ++ (w ++ r)) = u ++ (' ' :: (star3 ++ X)) := by
      simpa only [List.append_assoc, List.cons_append] using hr
    exact List.append_cancel_left hr'
  -- v = ' ' :: v'' with v'' all ws prefix of star3 ++ X
  cases v with
  | nil => exact hvne rfl
  | cons a v'' =>
    rw [List.cons_append] at hr2
    injection hr2 with h1 h2
    -- v'' ++ (w ++ r) = star3 ++ X, v'' all ws
    have hv'' : v'' = [] := by
      have hpre : v'' <+: ('*' : Char) :: ('*' :: '*' :: X) := by
        refine ⟨w ++ r, ?_⟩
        simpa [star3] using h2
      exact prefix_nil_of_head_not hpre
        (fun c hc => hvws c (List.mem_cons_of_mem a hc)) (by decide)
    subst hv''
    rw [List.nil_append] at h2
    -- w ++ r = star3 ++ X, w all b64 nonempty
    cases w with
    | nil => cases hwl
    | cons b w' =>
      simp only [star3, List.cons_append, List.nil_append] at h2
      injection h2 with h3 _
      have hb64 := hwb b (List.mem_cons_self b w')
      rw [h3] at hb64
      cases hb64

theorem suffix_of_proper_suffix_cons {g : List Char} {x : Char} {xs : List Char}
    (hg : g <:+ x :: xs) (hlen : g.length < (x :: xs).length) : g <:+ xs := by
  obtain ⟨i, hi⟩ := hg
  cases i with
  | nil =>
    rw [List.nil_append] at hi
    rw [hi] at hlen
    omega
  | cons y ys =>
    rw [List.cons_append] at hi
    injection hi with _ h2
    exact ⟨ys, h2⟩

theorem repl_tail_ci_false {w0 : Char} {wrest : List Char} {c0 : Char}
    {ctail : List Char} (hgw : GoodWord (w0 :: wrest) (c0 :: ctail)) :
    ∀ y ∈ ctail ++ ' ' :: star3, ciEqCh y w0 = false := by
  obtain ⟨hal, _, hnc, hcap⟩ := hgw
  cases hcap with
  | cons hc0 hctail =>
    intro y hy
    rcases List.mem_append.mp hy with hy2 | hy2
    · obtain ⟨b, hb, hrb⟩ := forall₂_mem_left hctail hy2
      by_contra hcontra
      rw [Bool.not_eq_false] at hcontra
      have hbw : ciEqCh b w0 = true := ciEqCh_trans (ciEqCh_symm hrb) hcontra
      rw [hnc b hb] at hbw
      cases hbw
    · rcases List.mem_cons.mp hy2 with rfl | hy3
      · exact ciEq_false_of_nonalpha hal (by decide)
      · rw [mem_star3 hy3]
        exact ciEq_false_of_nonalpha hal (by decide)

theorem no_startsMatch_repl_suffix {word cap X g : List Char} (hgw : GoodWord word cap)
    (hg : g <:+ cap ++ ' ' :: star3) (hgne : g ≠ []) :
    ¬ StartsWordMatch word (g ++ X) := by
  obtain ⟨w0, wrest, c0, ctail, hword, hcap, _⟩ := goodWord_destruct hgw
  subst hword
  subst hcap
  by_cases hlen : g.length = ((c0 :: ctail) ++ ' ' :: star3).length
  · have hge : g = (c0 :: ctail) ++ ' ' :: star3 := hg.eq_of_length hlen
    subst hge
    exact no_startsMatch_repl hgw
  · intro hsm
    have hglt : g.length < ((c0 :: ctail) ++ ' ' :: star3).length :=
      Nat.lt_of_le_of_ne hg.length_le hlen
    have hgt : g <:+ ctail ++ ' ' :: star3 := by
      rw [List.cons_append] at hg hglt
      exact suffix_of_proper_suffix_cons hg hglt
    obtain ⟨x, xs, w0', wrest', hgx, hword', hci⟩ :=
      startsMatch_head_ci (List.cons_ne_nil w0 wrest) hsm
    have hxg : ∃ g', g = x :: g' := by
      cases g with
      | nil => exact absurd rfl hgne
      | cons a g' =>
        rw [List.cons_append] at hgx
        injection hgx with h1 _
        exact ⟨g', by rw [h1]⟩
    obtain ⟨g', rfl⟩ := hxg
    have hxmem : x ∈ ctail ++ ' ' :: star3 := hgt.subset (List.mem_cons_self x g')
    have hfalse := repl_tail_ci_false hgw x hxmem
    injection hword' with hw0 _
    rw [← hw0] at hci
    rw [hci] at hfalse
    cases hfalse

theorem transport_match {word cap : List Char} (hgw : GoodWord word cap)
    {g X s : List Char} (hsm : StartsWordMatch word s)
    (h : StartsWordMatch word (g ++ ((cap ++ ' ' :: star3) ++ X))) :
    StartsWordMatch word (g ++ s) := by
  obtain ⟨w0, wrest, c0, ctail, hword, hcap, hal0, halr, hnc, hc0, hct⟩ := goodWord_destruct hgw
  subst hword
  subst hcap
  by_cases hgnil : g = []
  · subst hgnil
    rw [List.nil_append] at h
    exact absurd h (no_startsMatch_repl hgw)
  obtain ⟨m, hp, u, v, w, hm, hf, hvne, hvws, hwl, hwb⟩ := h
  by_cases hmg : m.length ≤ g.length
  · have hmp : m <+: g := List.prefix_of_prefix_length_le hp (List.prefix_append g _) hmg
    exact ⟨m, hmp.trans (List.prefix_append g s), u, v, w, hm, hf, hvne, hvws, hwl, hwb⟩
  have hgm : g <+: m := List.prefix_of_prefix_length_le (List.prefix_append g _) hp
    (Nat.le_of_lt (Nat.lt_of_not_le hmg))
  have humpre : u <+: m := ⟨v ++ w, by rw [hm, List.append_assoc]⟩
  have hu_pref : u <+: g ++ (((c0 :: ctail) ++ ' ' :: star3) ++ X) := humpre.trans hp
  by_cases hug : g.length < u.length
  · -- the word part of the mask-output match would reach into the replacement
    exfalso
    have hg_u : g <+: u :=
      List.prefix_of_prefix_length_le (List.prefix_append g _) hu_pref (Nat.le_of_lt hug)
    obtain ⟨u₂, rfl⟩ := hg_u
    have hf2 : List.Forall₂ (fun a b => ciEqCh a b = true) ((g ++ u₂).drop g.length)
        ((w0 :: wrest).drop g.length) := List.forall₂_drop g.length hf
    rw [List.drop_left] at hf2
    cases u₂ with
    | nil => simp at hug
    | cons b u₂' =>
      obtain ⟨wd, wtail, hdrop⟩ : ∃ wd wtail, (w0 :: wrest).drop g.length = wd :: wtail := by
        cases hD : (w0 :: wrest).drop g.length with
        | nil => rw [hD] at hf2; cases hf2
        | cons wd wtail => exact ⟨wd, wtail, rfl⟩
      rw [hdrop] at hf2
      cases hf2 with
      | cons hbd hrest =>
        have hwd_mem : wd ∈ wrest := by
          have hg1 : 1 ≤ g.length := List.length_pos.mpr hgnil
          have hge : g.length = (g.length - 1) + 1 := by omega
          rw [hge, List.drop_succ_cons] at hdrop
          have hmem : wd ∈ wrest.drop (g.length - 1) := by
            rw [hdrop]
            exact List.mem_cons_self wd wtail
          exact List.drop_subset _ _ hmem
        obtain ⟨t, ht⟩ := hp
        have ht2 : b :: (u₂' ++ (v ++ (w ++ t))) = c0 :: (ctail ++ (' ' :: (star3 ++ X))) := by
          rw [hm] at ht
          have h0 : g ++ (b :: (u₂' ++ (v ++ (w ++ t)))) =
              g ++ (c0 :: (ctail ++ (' ' :: (star3 ++ X)))) := by
            simpa only [List.append_assoc, List.cons_append] using ht
          exact List.append_cancel_left h0
        injection ht2 with hb _
        have hwdw0 : ciEqCh wd w0 = true := by
          refine ciEqCh_trans (ciEqCh_symm hbd) ?_
          rw [hb]
          exact hc0
        simp [hnc wd hwd_mem] at hwdw0
  by_cases hvg : g.length < u.length + v.length
  · -- the whitespace part of the mask-output match would cover the capitalised head
    exfalso
    have hu_g : u <+: g :=
      List.prefix_of_prefix_length_le hu_pref (List.prefix_append g _) (Nat.le_of_not_lt hug)
    obtain ⟨g₂, rfl⟩ := hu_g
    obtain ⟨t, ht⟩ := hp
    have hvt : v ++ (w ++ t) = g₂ ++ (((c0 :: ctail) ++ ' ' :: star3) ++ X) := by
      rw [hm] at ht
      have h0 : u ++ (v ++ (w ++ t)) =
          u ++ (g₂ ++ (((c0 :: ctail) ++ ' ' :: star3) ++ X)) := by
        simpa only [List.append_assoc] using ht
      exact List.append_cancel_left h0
    have hg₂v : g₂ <+: v := by
      refine List.prefix_of_prefix_length_le (List.prefix_append g₂ _) ⟨w ++ t, hvt⟩ ?_
      have := List.length_append u g₂
      omega
    obtain ⟨v₂, rfl⟩ := hg₂v
    have hv₂ : v₂ ++ (w ++ t) = ((c0 :: ctail) ++ ' ' :: star3) ++ X := by
      have h0 : g₂ ++ (v₂ ++ (w ++ t)) =
          g₂ ++ ((((c0 :: ctail) ++ ' ' :: star3)) ++ X) := by
        simpa only [List.append_assoc] using hvt
      exact List.append_cancel_left h0
    cases v₂ with
    | nil =>
      simp at hvg
    | cons e v₂' =>
      have he : e = c0 := by
        have h0 : e :: (v₂' ++ (w ++ t)) = c0 :: (ctail ++ (' ' :: (star3 ++ X))) := by
          simpa only [List.append_assoc, List.cons_append] using hv₂
        injection h0 with h1 _
      have hews : isPyWsCh e = true :=
        hvws e (List.mem_append_right g₂ (List.mem_cons_self e v₂'))
      have hc0alpha : isAsciiAlphaCh c0 = true := alpha_of_ciEq hc0 hal0
      rw [he] at hews
      rw [alpha_not_ws hc0alpha] at hews
      cases hews
  · -- the whole word-and-space part lies inside g; rebuild the base64 window from s
    have huv_pref : u ++ v <+: g ++ (((c0 :: ctail) ++ ' ' :: star3) ++ X) := by
      refine List.IsPrefix.trans ⟨w, ?_⟩ hp
      rw [hm]
    have huv_g : u ++ v <+: g := by
      refine List.prefix_of_prefix_length_le huv_pref (List.prefix_append g _) ?_
      rw [List.length_append]
      omega
    obtain ⟨w₁, rfl⟩ := huv_g
    obtain ⟨w₂, hgm2⟩ := hgm
    have hw12 : w₁ ++ w₂ = w := by
      have h1 : u ++ (v ++ (w₁ ++ w₂)) = u ++ (v ++ w) := by
        simpa only [List.append_assoc] using hgm2.trans hm
      exact List.append_cancel_left (List.append_cancel_left h1)
    obtain ⟨t, ht⟩ := hp
    have hw₂R : w₂ ++ t = (c0 :: ctail) ++ (' ' :: (star3 ++ X)) := by
      rw [hm, ← hw12] at ht
      have h0 : u ++ (v ++ (w₁ ++ (w₂ ++ t))) =
          u ++ (v ++ (w₁ ++ ((c0 :: ctail) ++ (' ' :: (star3 ++ X))))) := by
        simpa only [List.append_assoc, List.cons_append] using ht
      exact List.append_cancel_left (List.append_cancel_left (List.append_cancel_left h0))
    have hw₂b64 : ∀ c ∈ w₂, isB64Ch c = true := by
      intro c hc
      refine hwb c ?_
      rw [← hw12]
      exact List.mem_append_right w₁ hc
    have hw₂cap : w₂ <+: c0 :: ctail := by
      refine prefix_of_blocked_tail (T := ' ' :: (star3 ++ X)) ⟨t, hw₂R⟩ hw₂b64 ?_
      intro d ds hd
      injection hd with h1 _
      rw [← h1]
      decide
    have hcl : (c0 :: ctail).length = (w0 :: wrest).length := (goodWord_forall₂ hgw).length_eq
    obtain ⟨m₀, hp₀, u', v', w', hm₀, hf', hv'ne, hv'ws, hw'l, hw'b⟩ := hsm
    obtain ⟨r₀, hr₀⟩ := hp₀
    have hku : w₂.length ≤ u'.length := by
      have h1 := hw₂cap.length_le
      have h2 := hf'.length_eq
      omega
    refine ⟨u ++ v ++ (w₁ ++ u'.take w₂.length), ?_, u, v, w₁ ++ u'.take w₂.length,
      rfl, hf, hvne, hvws, ?_, ?_⟩
    · have htd : u'.take w₂.length ++ (u'.drop w₂.length ++ (v' ++ (w' ++ r₀))) =
          u' ++ (v' ++ (w' ++ r₀)) := by
        rw [← List.append_assoc, List.take_append_drop]
      refine ⟨u'.drop w₂.length ++ (v' ++ (w' ++ r₀)), ?_⟩
      rw [← hr₀, hm₀]
      simp only [List.append_assoc]
      rw [htd]
    · have h20 : w₁.length + w₂.length = 20 := by
        have h1 := congrArg List.length hw12
        rw [List.length_append] at h1
        omega
      rw [List.length_append, List.length_take]
      omega
    · intro c hc
      rcases List.mem_append.mp hc with hc1 | hc2
      · refine hwb c ?_
        rw [← hw12]
        exact List.mem_append_left w₂ hc1
      · have hcu : c ∈ u' := List.take_subset _ _ hc2
        obtain ⟨b, hb, hcb⟩ := forall₂_mem_left hf' hcu
        exact alpha_b64 (alpha_of_ciEq hcb (goodWord_alpha hgw b hb))

theorem transport_masked {word cap : List Char} (hgw : GoodWord word cap) :
    ∀ (s g : List Char), StartsWordMatch word (g ++ maskWord word cap s) →
      StartsWordMatch word (g ++ s) := by
  have main : ∀ n s g, s.length ≤ n → StartsWordMatch word (g ++ maskWord word cap s) →
      StartsWordMatch word (g ++ s) := by
    intro n
    induction n with
    | zero =>
      intro s g hl h
      rw [List.length_eq_zero.mp (Nat.le_zero.mp hl)] at h ⊢
      rwa [maskWord_nil] at h
    | succ k ih =>
      intro s g hl h
      cases s with
      | nil => rwa [maskWord_nil] at h
      | cons c cs =>
        by_cases hz : matchWordLen word (c :: cs) = 0
        · rw [maskWord_cons_zero cap hz] at h
          have h2 : StartsWordMatch word ((g ++ [c]) ++ maskWord word cap cs) := by
            simpa only [List.append_assoc, List.singleton_append] using h
          have h3 := ih cs (g ++ [c])
            (by simp only [List.length_cons] at hl; omega) h2
          simpa only [List.append_assoc, List.singleton_append] using h3
        · rw [maskWord_cons_pos cap hz] at h
          exact transport_match hgw (startsWordMatch_of_matchWordLen hz) h
  intro s g
  exact main s.length s g (Nat.le_refl _)

theorem not_hasWordMatch_maskWord {word cap : List Char} (hgw : GoodWord word cap) :
    ∀ s, ¬ HasWordMatch word (maskWord word cap s) := by
  have main : ∀ n s, s.length ≤ n → ¬ HasWordMatch word (maskWord word cap s) := by
    intro n
    induction n with
    | zero =>
      intro s hl
      rw [List.length_eq_zero.mp (Nat.le_zero.mp hl), maskWord_nil]
      rintro ⟨m, hinf, hmatch⟩
      exact wordMatch_ne_nil hgw hmatch (List.sublist_nil.mp hinf.sublist)
    | succ k ih =>
      intro s hl
      cases s with
      | nil =>
        rw [maskWord_nil]
        rintro ⟨m, hinf, hmatch⟩
        exact wordMatch_ne_nil hgw hmatch (List.sublist_nil.mp hinf.sublist)
      | cons c cs =>
        by_cases hz : matchWordLen word (c :: cs) = 0
        · rw [maskWord_cons_zero cap hz]
          rintro ⟨m, hinf, hmatch⟩
          have hinf2 : m <:+: [c] ++ maskWord word cap cs := by simpa using hinf
          rcases infix_append_cases hinf2 with h2 | ⟨g, hg, hgne, hpm⟩
          · exact ih cs (by simp only [List.length_cons] at hl; omega) ⟨m, h2, hmatch⟩
          · have hgc : g = [c] := by
              obtain ⟨i, hi⟩ := hg
              cases i with
              | nil => simpa using hi
              | cons a as =>
                cases g with
                | nil => exact absurd rfl hgne
                | cons b bs =>
                  have hli := congrArg List.length hi
                  simp at hli
            subst hgc
            have hstart : StartsWordMatch word ([c] ++ maskWord word cap cs) :=
              ⟨m, hpm, hmatch⟩
            have h4 : StartsWordMatch word ([c] ++ cs) := transport_masked hgw cs [c] hstart
            have h5 : StartsWordMatch word (c :: cs) := by simpa using h4
            exact (matchWordLen_ne_zero_of_starts h5) hz
        · rw [maskWord_cons_pos cap hz]
          rintro ⟨m, hinf, hmatch⟩
          rcases infix_append_cases hinf with h2 | ⟨g, hg, hgne, hpm⟩
          · refine ih ((c :: cs).drop (matchWordLen word (c :: cs)))
              ?_ ⟨m, h2, hmatch⟩
            have h1 : 1 ≤ matchWordLen word (c :: cs) := Nat.one_le_iff_ne_zero.mpr hz
            rw [List.length_drop]
            simp only [List.length_cons] at hl ⊢
            omega
          · exact no_startsMatch_repl_suffix hgw hg hgne ⟨m, hpm, hmatch⟩
  intro s
  exact main s.length s (Nat.le_refl _)

/-! ## Truncation preserves the redaction guarantees -/

theorem truncSuffix_head {d : Char} {ds : List Char} (h : truncSuffix = d :: ds) :
    d = '.' := by
  have h1 : truncSuffix.head? = some d := by rw [h]; rfl
  have h2 : truncSuffix.head? = some '.' := by decide
  rw [h2] at h1
  exact (Option.some.inj h1).symm

theorem wordMatch_len_ge {word cap m : List Char} (hgw : GoodWord word cap)
    (hm : IsWordMatch word m) : 22 ≤ m.length := by
  obtain ⟨u, v, w, rfl, hf, hvne, _, hwl, _⟩ := hm
  obtain ⟨w0, wrest, _, _, rfl, _⟩ := goodWord_destruct hgw
  have hu : u.length = wrest.length + 1 := by
    have := hf.length_eq
    simpa using this
  have hv : 1 ≤ v.length := by
    cases v with
    | nil => exact absurd rfl hvne
    | cons a as => simp
  simp only [List.length_append]
  omega

theorem wordMatch_chars {word cap m : List Char} (hgw : GoodWord word cap)
    (hm : IsWordMatch word m) :
    ∀ c ∈ m, isB64Ch c = true ∨ isPyWsCh c = true := by
  obtain ⟨u, v, w, rfl, hf, _, hvws, _, hwb⟩ := hm
  intro c hc
  rcases List.mem_append.mp hc with hc1 | hc2
  · rcases List.mem_append.mp hc1 with hcu | hcv
    · obtain ⟨b, hb, hcb⟩ := forall₂_mem_left hf hcu
      exact Or.inl (alpha_b64 (alpha_of_ciEq hcb (goodWord_alpha hgw b hb)))
    · exact Or.inr (hvws c hcv)
  · exact Or.inl (hwb c hc2)

theorem not_hasWordMatch_truncateLog {word cap s : List Char} (hgw : GoodWord word cap)
    (h : ¬ HasWordMatch word s) : ¬ HasWordMatch word (truncateLog s) := by
  rw [truncateLog]
  by_cases hl : 200 < s.length
  case neg => rw [if_neg hl]; exact h
  rw [if_pos hl]
  rintro ⟨m, hinf, hmatch⟩
  rcases infix_append_cases hinf with h2 | ⟨g, hg, hgne, hpm⟩
  · have hlen := h2.length_le
    have hlb := wordMatch_len_ge hgw hmatch
    have hts : truncSuffix.length = 15 := by decide
    omega
  · by_cases hmg : m.length ≤ g.length
    · have hmp : m <+: g := List.prefix_of_prefix_length_le hpm (List.prefix_append g _) hmg
      exact h ⟨m, hmp.isInfix.trans (hg.isInfix.trans (List.take_prefix 200 s).isInfix),
        hmatch⟩
    · have hgm : g <+: m := List.prefix_of_prefix_length_le (List.prefix_append g _) hpm
        (Nat.le_of_lt (Nat.lt_of_not_le hmg))
      obtain ⟨m₂, hm₂⟩ := hgm
      have hm₂p : m₂ <+: truncSuffix := by
        obtain ⟨t, ht⟩ := hpm
        refine ⟨t, ?_⟩
        have h3 : g ++ (m₂ ++ t) = g ++ truncSuffix := by
          rw [← List.append_assoc, hm₂]
          exact ht
        exact List.append_cancel_left h3
      cases m₂ with
      | nil =>
        rw [List.append_nil] at hm₂
        rw [hm₂] at hmg
        exact hmg (Nat.le_refl _)
      | cons d ds =>
        obtain ⟨t2, ht2⟩ := hm₂p
        have hd : d = '.' := truncSuffix_head (by rw [← ht2]; rfl)
        have hdm : d ∈ m := by
          rw [← hm₂]
          exact List.mem_append_right g (List.mem_cons_self d ds)
        rcases wordMatch_chars hgw hmatch d hdm with hb | hw
        · rw [hd] at hb; cases hb
        · rw [hd] at hw; cases hw

theorem noRun32_truncateLog {s : List Char} (h : NoRun32 s) :
    NoRun32 (truncateLog s) := by
  rw [truncateLog]
  by_cases hl : 200 < s.length
  case neg => rw [if_neg hl]; exact h
  rw [if_pos hl]
  intro m hinf halnum
  rcases infix_append_cases hinf with h2 | ⟨g, hg, hgne, hpm⟩
  · have hlen := h2.length_le
    have hts : truncSuffix.length = 15 := by decide
    omega
  · have hmg : m <+: g := by
      refine prefix_of_blocked_tail hpm halnum ?_
      intro d ds hd
      rw [truncSuffix_head hd]
      decide
    exact h m (hmg.isInfix.trans (hg.isInfix.trans (List.take_prefix 200 s).isInfix)) halnum

theorem truncateLog_idem (s : List Char) :
    truncateLog (truncateLog s) = truncateLog s := by
  by_cases hl : 200 < s.length
  · have h1 : truncateLog s = s.take 200 ++ truncSuffix := by rw [truncateLog, if_pos hl]
    rw [h1, truncateLog]
    have hts : truncSuffix.length = 15 := by decide
    have hlen : (s.take 200 ++ truncSuffix).length = 215 := by
      rw [List.length_append, List.length_take]
      omega
    rw [if_pos (by omega)]
    have h2 : (s.take 200 ++ truncSuffix).take 200 = s.take 200 :=
      List.take_left' (by rw [List.length_take]; omega)
    rw [h2]
  · have h1 : truncateLog s = s := by rw [truncateLog, if_neg hl]
    rw [h1, h1]

/-! ## The provider's quoted-email rule -/

theorem quote_cases {c : Char} (h : isQuoteCh c = true) : c = '"' ∨ c = '\'' := by
  simp only [isQuoteCh, Bool.or_eq_true, beq_iff_eq] at h
  exact h

theorem quote_not_local {c : Char} (h : isQuoteCh c = true) : isLocalCh c = false := by
  rcases quote_cases h with rfl | rfl <;> decide

theorem quote_not_domain {c : Char} (h : isQuoteCh c = true) : isDomainCh c = false := by
  rcases quote_cases h with rfl | rfl <;> decide

theorem local_not_quote {c : Char} (h : isLocalCh c = true) : isQuoteCh c = false := by
  by_contra h0
  rw [Bool.not_eq_false] at h0
  rw [quote_not_local h0] at h
  cases h

theorem domain_not_quote {c : Char} (h : isDomainCh c = true) : isQuoteCh c = false := by
  by_contra h0
  rw [Bool.not_eq_false] at h0
  rw [quote_not_domain h0] at h
  cases h

theorem takeWhile_append_block {p : Char → Bool} {l1 : List Char} {c : Char}
    (l2 : List Char) (h1 : ∀ a ∈ l1, p a = true) (hc : p c = false) :
    (l1 ++ c :: l2).takeWhile p = l1 := by
  induction l1 with
  | nil => rw [List.nil_append, List.takeWhile_cons_of_neg (by simp [hc])]
  | cons a as ih =>
    rw [List.cons_append, List.takeWhile_cons_of_pos (h1 a (List.mem_cons_self a as)),
      ih (fun b hb => h1 b (List.mem_cons_of_mem a hb))]

theorem matchEmailLen_nil : matchEmailLen [] = 0 := by
  rw [matchEmailLen]

theorem matchEmailLen_nonquote {d : Char} {ds : List Char} (h : isQuoteCh d = false) :
    matchEmailLen (d :: ds) = 0 := by
  rw [matchEmailLen, if_neg (by rw [h]; exact Bool.false_ne_true)]

theorem matchEmailLen_build {q : Char} {loc dom : List Char} {q2 : Char}
    (rest : List Char) (hq : isQuoteCh q = true) (hloc : loc ≠ [])
    (hlocal : ∀ c ∈ loc, isLocalCh c = true) (hdom : dom ≠ [])
    (hdomain : ∀ c ∈ dom, isDomainCh c = true) (hq2 : isQuoteCh q2 = true) :
    matchEmailLen (q :: (loc ++ '@' :: (dom ++ q2 :: rest))) =
      loc.length + dom.length + 3 := by
  have htw : (loc ++ '@' :: (dom ++ q2 :: rest)).takeWhile isLocalCh = loc :=
    takeWhile_append_block _ hlocal (by decide)
  have htw2 : (dom ++ q2 :: rest).takeWhile isDomainCh = dom :=
    takeWhile_append_block _ hdomain (quote_not_domain hq2)
  rw [matchEmailLen]
  rw [if_pos hq]
  rw [htw, if_neg hloc, List.drop_left]
  split
  case _ rest2 heq =>
    injection heq with h1 h2
    subst h2
    rw [htw2, if_neg hdom, List.drop_left]
    split
    case _ q3 tail3 heq3 =>
      injection heq3 with h3 h4
      subst h3
      rw [if_pos hq2]
      omega
    case _ heq3 =>
      cases heq3
  case _ hne =>
    exact absurd rfl (hne _)

theorem emailMatch_struct {s : List Char} (h : matchEmailLen s ≠ 0) :
    ∃ q loc dom q2 rest, s = q :: (loc ++ '@' :: (dom ++ q2 :: rest)) ∧
      isQuoteCh q = true ∧ loc ≠ [] ∧ (∀ c ∈ loc, isLocalCh c = true) ∧
      dom ≠ [] ∧ (∀ c ∈ dom, isDomainCh c = true) ∧ isQuoteCh q2 = true ∧
      matchEmailLen s = loc.length + dom.length + 3 := by
  cases s with
  | nil => rw [matchEmailLen] at h; exact absurd rfl h
  | cons q rest0 =>
    rw [matchEmailLen] at h
    by_cases hq : isQuoteCh q
    case neg => rw [if_neg hq] at h; exact absurd rfl h
    rw [if_pos hq] at h
    by_cases hloc : rest0.takeWhile isLocalCh = []
    · rw [if_pos hloc] at h; exact absurd rfl h
    rw [if_neg hloc] at h
    rw [drop_takeWhile_length] at h
    split at h
    case _ rest2 heq =>
      by_cases hdom : rest2.takeWhile isDomainCh = []
      · rw [if_pos hdom] at h; exact absurd rfl h
      rw [if_neg hdom] at h
      rw [drop_takeWhile_length] at h
      split at h
      case _ q2 tail2 heq2 =>
        by_cases hq2 : isQuoteCh q2
        case neg => rw [if_neg hq2] at h; exact absurd rfl h
        have h1 : rest0 = rest0.takeWhile isLocalCh ++ ('@' :: rest2) := by
          conv_lhs => rw [← List.takeWhile_append_dropWhile (p := isLocalCh) (l := rest0)]
          rw [heq]
        have h2 : rest2 = rest2.takeWhile isDomainCh ++ (q2 :: tail2) := by
          conv_lhs => rw [← List.takeWhile_append_dropWhile (p := isDomainCh) (l := rest2)]
          rw [heq2]
        refine ⟨q, rest0.takeWhile isLocalCh, rest2.takeWhile isDomainCh, q2, tail2,
          ?_, hq, hloc, fun c hc => List.mem_takeWhile_imp hc, hdom,
          fun c hc => List.mem_takeWhile_imp hc, hq2, ?_⟩
        · conv_lhs => rw [h1, h2]
        · have hb := matchEmailLen_build tail2
            hq hloc (fun c hc => List.mem_takeWhile_imp hc) hdom
            (fun c hc => List.mem_takeWhile_imp hc) hq2
          rw [← hb]
          congr 1
          conv_lhs => rw [h1, h2]
      case _ heq2 =>
        exact absurd rfl h
    case _ hne =>
      exact absurd rfl h

theorem email_region_take (q : Char) (loc dom : List Char) (q2 : Char) (rest : List Char) :
    (q :: (loc ++ '@' :: (dom ++ q2 :: rest))).take (loc.length + dom.length + 3) =
      q :: (loc ++ '@' :: (dom ++ [q2])) := by
  have hn : loc.length + dom.length + 3 = (loc.length + ((dom.length + 1) + 1)) + 1 := by
    omega
  rw [hn, List.take_succ_cons, List.take_append, List.take_succ_cons, List.take_append,
    List.take_succ_cons, List.take_zero]

theorem email_region_drop (q : Char) (loc dom : List Char) (q2 : Char) (rest : List Char) :
    (q :: (loc ++ '@' :: (dom ++ q2 :: rest))).drop (loc.length + dom.length + 3) =
      rest := by
  have hn : loc.length + dom.length + 3 = (loc.length + ((dom.length + 1) + 1)) + 1 := by
    omega
  rw [hn, List.drop_succ_cons, List.drop_append, List.drop_succ_cons, List.drop_append,
    List.drop_succ_cons, List.drop_zero]

theorem email_region_interior (loc dom : List Char) (q2 : Char) :
    (loc ++ '@' :: (dom ++ [q2])).dropLast = loc ++ '@' :: dom := by
  have h : loc ++ '@' :: (dom ++ [q2]) = (loc ++ '@' :: dom) ++ [q2] := by
    simp only [List.append_assoc, List.cons_append]
  rw [h, List.dropLast_concat]

theorem maskEmail_match_eq {q : Char} {loc dom : List Char} {q2 : Char} {rest : List Char}
    (hq : isQuoteCh q = true) (hloc : loc ≠ []) (hlocal : ∀ c ∈ loc, isLocalCh c = true)
    (hdom : dom ≠ []) (hdomain : ∀ c ∈ dom, isDomainCh c = true)
    (hq2 : isQuoteCh q2 = true) :
    maskEmail (q :: (loc ++ '@' :: (dom ++ q2 :: rest))) =
      ('"' :: (loc ++ '@' :: dom)) ++ ('"' :: maskEmail rest) := by
  have hL := matchEmailLen_build rest hq hloc hlocal hdom hdomain hq2
  have hmask := maskEmail_cons_pos
    ((by rw [hL]; omega) : matchEmailLen (q :: (loc ++ '@' :: (dom ++ q2 :: rest))) ≠ 0)
  rw [hmask, hL, email_region_take, email_region_drop, List.drop_succ_cons,
    List.drop_zero, email_region_interior]

theorem forall₂_cons_split {R : Char → Char → Prop} {s : List Char} {b : Char}
    {Y : List Char} (h : List.Forall₂ R s (b :: Y)) :
    ∃ a s', s = a :: s' ∧ R a b ∧ List.Forall₂ R s' Y := by
  cases h with
  | cons hab h2 => exact ⟨_, _, rfl, hab, h2⟩

theorem forall₂_append_split {R : Char → Char → Prop} {s X Y : List Char}
    (h : List.Forall₂ R s (X ++ Y)) :
    ∃ u v, s = u ++ v ∧ List.Forall₂ R u X ∧ List.Forall₂ R v Y := by
  induction X generalizing s with
  | nil => exact ⟨[], s, rfl, List.Forall₂.nil, h⟩
  | cons b X' ih =>
    rw [List.cons_append] at h
    obtain ⟨a, s', rfl, hab, h2⟩ := forall₂_cons_split h
    obtain ⟨u, v, rfl, hu, hv⟩ := ih h2
    exact ⟨a :: u, v, by rw [List.cons_append], List.Forall₂.cons hab hu, hv⟩

theorem charEquiv_refl (a : Char) : charEquiv a a := Or.inl rfl

theorem charEquiv_eq_of_ne {a b : Char} (h : charEquiv a b) (hb : b ≠ '"') : b = a := by
  rcases h with h | ⟨_, h⟩
  · exact h
  · exact absurd h hb

theorem charEquiv_quote {a b : Char} (h : charEquiv a b) (hq : isQuoteCh b = true) :
    isQuoteCh a = true := by
  rcases h with rfl | ⟨h1, rfl⟩
  · exact hq
  · exact h1

theorem forall₂_eq_transfer {m' m : List Char} (h : List.Forall₂ charEquiv m' m)
    (hm : ∀ b ∈ m, b ≠ '"') : m' = m := by
  induction h with
  | nil => rfl
  | @cons a b l₁ l₂ hab htail ih =>
    rw [charEquiv_eq_of_ne hab (hm b (List.mem_cons_self b l₂)),
      ih (fun c hc => hm c (List.mem_cons_of_mem b hc))]

theorem forall₂_refl_equiv (l : List Char) : List.Forall₂ charEquiv l l := by
  induction l with
  | nil => exact List.Forall₂.nil
  | cons a as ih => exact List.Forall₂.cons (charEquiv_refl a) ih

theorem maskEmail_equiv : ∀ s, List.Forall₂ charEquiv s (maskEmail s) := by
  have main : ∀ n s, s.length ≤ n → List.Forall₂ charEquiv s (maskEmail s) := by
    intro n
    induction n with
    | zero =>
      intro s hl
      rw [List.length_eq_zero.mp (Nat.le_zero.mp hl), maskEmail_nil]
      exact List.Forall₂.nil
    | succ k ih =>
      intro s hl
      cases s with
      | nil => rw [maskEmail_nil]; exact List.Forall₂.nil
      | cons c cs =>
        by_cases hz : matchEmailLen (c :: cs) = 0
        · rw [maskEmail_cons_zero hz]
          exact List.Forall₂.cons (charEquiv_refl c)
            (ih cs (by simp only [List.length_cons] at hl; omega))
        · obtain ⟨q, loc, dom, q2, rest, hs, hq, hloc, hlocal, hdom, hdomain, hq2, hL⟩ :=
            emailMatch_struct hz
          rw [hs, maskEmail_match_eq hq hloc hlocal hdom hdomain hq2]
          have hrest : List.Forall₂ charEquiv rest (maskEmail rest) := by
            refine ih rest ?_
            have hlen := congrArg List.length hs
            simp only [List.length_cons, List.length_append] at hlen
            simp only [List.length_cons] at hl
            omega
          have hstep : List.Forall₂ charEquiv ((loc ++ '@' :: dom) ++ q2 :: rest)
              ((loc ++ '@' :: dom) ++ '"' :: maskEmail rest) :=
            List.rel_append (forall₂_refl_equiv _)
              (List.Forall₂.cons (Or.inr ⟨hq2, rfl⟩) hrest)
          have hshape : loc ++ '@' :: (dom ++ q2 :: rest) =
              (loc ++ '@' :: dom) ++ q2 :: rest := by
            simp only [List.append_assoc, List.cons_append]
          rw [hshape]
          exact List.Forall₂.cons (Or.inr ⟨hq, rfl⟩) hstep
  intro s
  exact main s.length s (Nat.le_refl _)

theorem maskEmail_eq_self_of_suffix_zero {s : List Char}
    (h : ∀ t, t <:+ s → matchEmailLen t = 0) : maskEmail s = s := by
  induction s with
  | nil => exact maskEmail_nil
  | cons c cs ih =>
    rw [maskEmail_cons_zero (h (c :: cs) (List.suffix_refl _)),
      ih fun t ht => h t (ht.trans (List.suffix_cons c cs))]

theorem truncSuffix_no_quote : ∀ c ∈ truncSuffix, isQuoteCh c = false := by decide

theorem maskEmail_truncSuffix : maskEmail truncSuffix = truncSuffix := by
  refine maskEmail_eq_self_of_suffix_zero ?_
  intro t ht
  cases t with
  | nil => exact matchEmailLen_nil
  | cons d ds =>
    exact matchEmailLen_nonquote
      (truncSuffix_no_quote d (ht.subset (List.mem_cons_self d ds)))

theorem equiv_infix_pullback {s t m : List Char} (h : List.Forall₂ charEquiv s t)
    (hinf : m <:+: t) (hm : ∀ b ∈ m, b ≠ '"') : m <:+: s := by
  obtain ⟨l, r, hlr⟩ := hinf
  have h2 := List.forall₂_drop l.length h
  rw [← hlr, List.append_assoc, List.drop_left] at h2
  have h3 := List.forall₂_take m.length h2
  rw [List.take_left] at h3
  have heq : (s.drop l.length).take m.length = m := forall₂_eq_transfer h3 hm
  rw [← heq]
  exact ((List.take_prefix _ _).isInfix).trans ((List.drop_suffix _ _).isInfix)

theorem not_hasWordMatch_maskEmail {word cap s : List Char} (hgw : GoodWord word cap)
    (h : ¬ HasWordMatch word s) : ¬ HasWordMatch word (maskEmail s) := by
  rintro ⟨m, hinf, hmatch⟩
  refine h ⟨m, ?_, hmatch⟩
  refine equiv_infix_pullback (maskEmail_equiv s) hinf ?_
  intro b hb hbq
  rcases wordMatch_chars hgw hmatch b hb with h1 | h1
  · rw [hbq] at h1; exact absurd h1 (by decide)
  · rw [hbq] at h1; exact absurd h1 (by decide)

theorem noRun32_maskEmail {s : List Char} (h : NoRun32 s) : NoRun32 (maskEmail s) := by
  intro m hinf halnum
  refine h m (equiv_infix_pullback (maskEmail_equiv s) hinf ?_) halnum
  intro b hb hbq
  have h1 := halnum b hb
  rw [hbq] at h1
  exact absurd h1 (by decide)

theorem maskEmail_idem : ∀ s, maskEmail (maskEmail s) = maskEmail s := by
  have main : ∀ n s, s.length ≤ n → maskEmail (maskEmail s) = maskEmail s := by
    intro n
    induction n with
    | zero =>
      intro s hl
      rw [List.length_eq_zero.mp (Nat.le_zero.mp hl), maskEmail_nil, maskEmail_nil]
    | succ k ih =>
      intro s hl
      cases s with
      | nil => rw [maskEmail_nil, maskEmail_nil]
      | cons c cs =>
        by_cases hz : matchEmailLen (c :: cs) = 0
        · rw [maskEmail_cons_zero hz]
          have hz2 : matchEmailLen (c :: maskEmail cs) = 0 := by
            by_contra h0
            obtain ⟨q, loc, dom, q2, rest2, hs, hq, hloc, hlocal, hdom, hdomain, hq2, hL⟩ :=
              emailMatch_struct h0
            injection hs with hcq htail
            have hF : List.Forall₂ charEquiv cs (loc ++ '@' :: (dom ++ q2 :: rest2)) := by
              rw [← htail]
              exact maskEmail_equiv cs
            obtain ⟨loc', s1, rfl, hlocF, hF1⟩ := forall₂_append_split hF
            have hloc'eq : loc' = loc := by
              refine forall₂_eq_transfer hlocF ?_
              intro b hb h0b
              rw [h0b] at hb
              exact absurd (hlocal '"' hb) (by decide)
            obtain ⟨a, s2, rfl, haAt, hF2⟩ := forall₂_cons_split hF1
            have haeq : a = '@' := (charEquiv_eq_of_ne haAt (by decide)).symm
            obtain ⟨dom', s3, rfl, hdomF, hF3⟩ := forall₂_append_split hF2
            have hdom'eq : dom' = dom := by
              refine forall₂_eq_transfer hdomF ?_
              intro b hb h0b
              rw [h0b] at hb
              exact absurd (hdomain '"' hb) (by decide)
            obtain ⟨a2, s4, rfl, haQ, hF4⟩ := forall₂_cons_split hF3
            have ha2q : isQuoteCh a2 = true := charEquiv_quote haQ hq2
            have hcq2 : isQuoteCh c = true := by rw [hcq]; exact hq
            have hloc2 : loc' ≠ [] := by rw [hloc'eq]; exact hloc
            have hlocal2 : ∀ e ∈ loc', isLocalCh e = true := by rw [hloc'eq]; exact hlocal
            have hdom2 : dom' ≠ [] := by rw [hdom'eq]; exact hdom
            have hdomain2 : ∀ e ∈ dom', isDomainCh e = true := by rw [hdom'eq]; exact hdomain
            have hb := matchEmailLen_build s4 hcq2 hloc2 hlocal2 hdom2 hdomain2 ha2q
            rw [haeq] at hz
            rw [hb] at hz
            omega
          rw [maskEmail_cons_zero hz2,
            ih cs (by simp only [List.length_cons] at hl; omega)]
        · obtain ⟨q, loc, dom, q2, rest2, hs, hq, hloc, hlocal, hdom, hdomain, hq2, hL⟩ :=
            emailMatch_struct hz
          rw [hs, maskEmail_match_eq hq hloc hlocal hdom hdomain hq2]
          have hshape : ('"' :: (loc ++ '@' :: dom)) ++ ('"' :: maskEmail rest2) =
              '"' :: (loc ++ '@' :: (dom ++ '"' :: maskEmail rest2)) := by
            simp only [List.cons_append, List.append_assoc]
          have hrb : rest2.length ≤ k := by
            have hlen := congrArg List.length hs
            simp only [List.length_cons, List.length_append] at hlen
            simp only [List.length_cons] at hl
            omega
          rw [hshape, maskEmail_match_eq (by decide) hloc hlocal hdom hdomain (by decide),
            ih rest2 hrb]
          exact hshape
  intro s
  exact main s.length s (Nat.le_refl _)

theorem matchEmailLen_append_trunc {x y : List Char} (hpre : x <+: y)
    (h : matchEmailLen (x ++ truncSuffix) ≠ 0) :
    matchEmailLen y = matchEmailLen (x ++ truncSuffix) ∧
      matchEmailLen (x ++ truncSuffix) ≤ x.length := by
  obtain ⟨q, loc, dom, q2, rest2, hs, hq, hloc, hlocal, hdom, hdomain, hq2, hL⟩ :=
    emailMatch_struct h
  have hPr : (q :: (loc ++ '@' :: (dom ++ [q2]))) ++ rest2 = x ++ truncSuffix := by
    rw [hs]
    simp only [List.cons_append, List.append_assoc, List.singleton_append, List.nil_append]
  have hP : (q :: (loc ++ '@' :: (dom ++ [q2]))) <+: x ++ truncSuffix := ⟨rest2, hPr⟩
  have hPlen : (q :: (loc ++ '@' :: (dom ++ [q2]))).length =
      loc.length + dom.length + 3 := by
    simp only [List.length_cons, List.length_append, List.length_singleton, List.length_nil]
    omega
  have hLle : loc.length + dom.length + 3 ≤ x.length := by
    by_contra hgt
    have hxP : x <+: q :: (loc ++ '@' :: (dom ++ [q2])) :=
      List.prefix_of_prefix_length_le (List.prefix_append x _) hP (by omega)
    obtain ⟨P2, hP2⟩ := hxP
    have hP2T : P2 <+: truncSuffix := by
      refine ⟨rest2, ?_⟩
      rw [← hP2] at hPr
      have h3 : x ++ (P2 ++ rest2) = x ++ truncSuffix := by
        simpa only [List.append_assoc] using hPr
      exact List.append_cancel_left h3
    have hPA : q :: (loc ++ '@' :: (dom ++ [q2])) =
        (q :: (loc ++ '@' :: dom)) ++ [q2] := by
      simp only [List.cons_append, List.append_assoc]
    have hxA : x <+: q :: (loc ++ '@' :: dom) := by
      refine List.prefix_of_prefix_length_le ⟨P2, hP2⟩ ?_ ?_
      · rw [hPA]
        exact List.prefix_append _ _
      · have hA : (q :: (loc ++ '@' :: dom)).length = loc.length + dom.length + 2 := by
          simp only [List.length_cons, List.length_append]
          omega
        omega
    obtain ⟨A2, hA2⟩ := hxA
    have hP2eq : P2 = A2 ++ [q2] := by
      have h4 : x ++ P2 = x ++ (A2 ++ [q2]) := by
        rw [hP2, hPA, ← hA2]
        simp only [List.append_assoc]
      exact List.append_cancel_left h4
    have hq2T : q2 ∈ truncSuffix := by
      refine hP2T.subset ?_
      rw [hP2eq]
      exact List.mem_append_right A2 (List.mem_cons_self q2 [])
    rw [truncSuffix_no_quote q2 hq2T] at hq2
    cases hq2
  have hPx : (q :: (loc ++ '@' :: (dom ++ [q2]))) <+: x :=
    List.prefix_of_prefix_length_le hP (List.prefix_append x _) (by omega)
  obtain ⟨x2, hx2⟩ := hPx
  obtain ⟨t', ht'⟩ := hpre
  have hy : y = q :: (loc ++ '@' :: (dom ++ q2 :: (x2 ++ t'))) := by
    rw [← ht', ← hx2]
    simp only [List.cons_append, List.append_assoc, List.singleton_append, List.nil_append]
  constructor
  · rw [hy, hL, matchEmailLen_build (x2 ++ t') hq hloc hlocal hdom hdomain hq2]
  · omega

theorem maskEmail_take_trunc : ∀ (w : List Char), maskEmail w = w →
    ∀ m, maskEmail (w.take m ++ truncSuffix) = w.take m ++ truncSuffix := by
  have main : ∀ n w, w.length ≤ n → maskEmail w = w →
      ∀ m, maskEmail (w.take m ++ truncSuffix) = w.take m ++ truncSuffix := by
    intro n
    induction n with
    | zero =>
      intro w hl _ m
      rw [List.length_eq_zero.mp (Nat.le_zero.mp hl), List.take_nil, List.nil_append]
      exact maskEmail_truncSuffix
    | succ k ih =>
      intro w hl hfix m
      cases w with
      | nil =>
        rw [List.take_nil, List.nil_append]
        exact maskEmail_truncSuffix
      | cons c cs =>
        cases m with
        | zero =>
          rw [List.take_zero, List.nil_append]
          exact maskEmail_truncSuffix
        | succ m' =>
          by_cases hz : matchEmailLen (c :: cs) = 0
          · have hfix2 : maskEmail cs = cs := by
              rw [maskEmail_cons_zero hz] at hfix
              injection hfix
            have hx0 : matchEmailLen ((c :: cs).take (m' + 1) ++ truncSuffix) = 0 := by
              by_contra h0
              obtain ⟨heq, _⟩ := matchEmailLen_append_trunc (List.take_prefix _ _) h0
              rw [hz] at heq
              exact h0 heq.symm
            rw [List.take_succ_cons, List.cons_append] at hx0 ⊢
            rw [maskEmail_cons_zero hx0,
              ih cs (by simp only [List.length_cons] at hl; omega) hfix2 m']
          · obtain ⟨q, loc, dom, q2, rest2, hs, hq, hloc, hlocal, hdom, hdomain, hq2, hL⟩ :=
              emailMatch_struct hz
            rw [hs] at hfix
            rw [maskEmail_match_eq hq hloc hlocal hdom hdomain hq2] at hfix
            have hfix2 : '"' :: (loc ++ '@' :: (dom ++ '"' :: maskEmail rest2)) =
                q :: (loc ++ '@' :: (dom ++ q2 :: rest2)) := by
              simpa only [List.cons_append, List.append_assoc] using hfix
            injection hfix2 with hqd htail
            have htail2 := List.append_cancel_left htail
            injection htail2 with _ htail3
            have htail4 := List.append_cancel_left htail3
            injection htail4 with hq2d hfr
            subst hqd
            subst hq2d
            have hrb : rest2.length ≤ k := by
              have hlen := congrArg List.length hs
              simp only [List.length_cons, List.length_append] at hlen
              simp only [List.length_cons] at hl
              omega
            by_cases hml : loc.length + dom.length + 3 ≤ m' + 1
            · have hXs : '"' :: (loc ++ '@' :: (dom ++ '"' :: rest2)) =
                  ('"' :: (loc ++ '@' :: (dom ++ ['"']))) ++ rest2 := by
                simp only [List.cons_append, List.append_assoc, List.singleton_append,
                  List.nil_append]
              have hRlen : ('"' :: (loc ++ '@' :: (dom ++ ['"']))).length =
                  loc.length + dom.length + 3 := by
                simp only [List.length_cons, List.length_append, List.length_singleton,
                  List.length_nil]
                omega
              have hn : m' + 1 = ('"' :: (loc ++ '@' :: (dom ++ ['"']))).length +
                  ((m' + 1) - (loc.length + dom.length + 3)) := by
                omega
              have htake : (c :: cs).take (m' + 1) =
                  ('"' :: (loc ++ '@' :: (dom ++ ['"']))) ++
                    rest2.take ((m' + 1) - (loc.length + dom.length + 3)) := by
                rw [hs, hXs]
                conv_lhs => rw [hn]
                rw [List.take_append]
              have hshape2 :
                  ((('"' :: (loc ++ '@' :: (dom ++ ['"']))) ++
                      rest2.take ((m' + 1) - (loc.length + dom.length + 3))) ++
                    truncSuffix) =
                  '"' :: (loc ++ '@' :: (dom ++ '"' ::
                    (rest2.take ((m' + 1) - (loc.length + dom.length + 3)) ++
                      truncSuffix))) := by
                simp only [List.cons_append, List.append_assoc, List.singleton_append,
                  List.nil_append]
              rw [htake, hshape2,
                maskEmail_match_eq (by decide) hloc hlocal hdom hdomain (by decide),
                ih rest2 hrb hfr ((m' + 1) - (loc.length + dom.length + 3))]
              simp only [List.cons_append, List.append_assoc]
            · have hcseq : cs = (loc ++ '@' :: dom) ++ '"' :: rest2 := by
                injection hs with _ hcs0
                rw [hcs0]
                simp only [List.cons_append, List.append_assoc]
              have hmid : cs.take (loc.length + dom.length + 1) = loc ++ '@' :: dom := by
                rw [hcseq]
                refine List.take_left' ?_
                simp only [List.length_append, List.length_cons]
                omega
              have hsubset : ∀ e ∈ cs.take m', e ∈ loc ++ '@' :: dom := by
                intro e he
                have h1 : cs.take m' = (cs.take (loc.length + dom.length + 1)).take m' := by
                  rw [List.take_take, Nat.min_eq_left (by omega)]
                rw [h1, hmid] at he
                exact List.take_subset _ _ he
              have hx0 : matchEmailLen ((c :: cs).take (m' + 1) ++ truncSuffix) = 0 := by
                by_contra h0
                obtain ⟨heq, hle⟩ := matchEmailLen_append_trunc (List.take_prefix _ _) h0
                rw [hL] at heq
                have hxlen : ((c :: cs).take (m' + 1)).length ≤ m' + 1 :=
                  List.length_take_le _ _
                omega
              refine maskEmail_eq_self_of_suffix_zero ?_
              intro t ht
              cases t with
              | nil => exact matchEmailLen_nil
              | cons d ds =>
                by_cases hwhole : (d :: ds).length =
                    ((c :: cs).take (m' + 1) ++ truncSuffix).length
                · rw [ht.eq_of_length hwhole]
                  exact hx0
                · have hlt : (d :: ds).length <
                      ((c :: cs).take (m' + 1) ++ truncSuffix).length :=
                    Nat.lt_of_le_of_ne ht.length_le hwhole
                  have hx : (c :: cs).take (m' + 1) ++ truncSuffix =
                      c :: (cs.take m' ++ truncSuffix) := by
                    rw [List.take_succ_cons, List.cons_append]
                  rw [hx] at ht hlt
                  have ht2 : (d :: ds) <:+ cs.take m' ++ truncSuffix :=
                    suffix_of_proper_suffix_cons ht hlt
                  have hd : d ∈ cs.take m' ++ truncSuffix :=
                    ht2.subset (List.mem_cons_self d ds)
                  refine matchEmailLen_nonquote ?_
                  rcases List.mem_append.mp hd with h1 | h1
                  · have h2 := hsubset d h1
                    rcases List.mem_append.mp h2 with h3 | h3
                    · exact local_not_quote (hlocal d h3)
                    · rcases List.mem_cons.mp h3 with rfl | h4
                      · decide
                      · exact domain_not_quote (hdomain d h4)
                  · exact truncSuffix_no_quote d h1
  intro w hfix m
  exact main w.length w (Nat.le_refl _) hfix m

theorem maskEmail_truncateLog_fix {w : List Char} (h : maskEmail w = w) :
    maskEmail (truncateLog w) = truncateLog w := by
  rw [truncateLog]
  by_cases hl : 200 < w.length
  · rw [if_pos hl]
    exact maskEmail_take_trunc w h 200
  · rw [if_neg hl]
    exact h

/-! ## Claim theorems -/

/-- C5: both `_sanitize_for_log` redactors are idempotent: sanitising an
already-sanitised text returns it unchanged, including for inputs past the
200-character truncation limit. -/
theorem redactor_idempotent (x : List Char) :
    sanitize_for_log_tools (sanitize_for_log_tools x) = sanitize_for_log_tools x ∧
    sanitize_for_log_provider (sanitize_for_log_provider x) =
      sanitize_for_log_provider x := by
  have hgb : GoodWord basicWord basicCap := ⟨by decide, by decide, by decide, by decide⟩
  have hge : GoodWord bearerWord bearerCap :=
    ⟨by decide, by decide, by decide, by decide⟩
  constructor
  · have efix : ∀ z : List Char, ¬ HasWordMatch basicWord z → NoRun32 z →
        truncateLog z = z → sanitize_for_log_tools z = z := by
      intro z hmz hrz htz
      by_cases hz0 : z = []
      · rw [sanitize_for_log_tools, if_pos hz0]
      · rw [sanitize_for_log_tools, if_neg hz0, maskWord_eq_self_of_not_has hmz,
          maskRuns_eq_self_of_noRun32 hrz, htz]
    by_cases hx : x = []
    · subst hx
      have e1 : sanitize_for_log_tools [] = [] := by
        rw [sanitize_for_log_tools, if_pos rfl]
      rw [e1, e1]
    · have e0 : sanitize_for_log_tools x =
          truncateLog (maskRuns (maskWord basicWord basicCap x)) := by
        rw [sanitize_for_log_tools, if_neg hx]
      refine efix _ ?_ ?_ ?_
      · rw [e0]
        exact not_hasWordMatch_truncateLog hgb
          (not_hasWordMatch_maskRuns hgb (not_hasWordMatch_maskWord hgb x))
      · rw [e0]
        exact noRun32_truncateLog (noRun32_maskRuns _)
      · rw [e0]
        exact truncateLog_idem _
  · have efix : ∀ z : List Char, ¬ HasWordMatch bearerWord z → NoRun32 z →
        maskEmail z = z → truncateLog z = z → sanitize_for_log_provider z = z := by
      intro z hmz hrz hez htz
      by_cases hz0 : z = []
      · rw [sanitize_for_log_provider, if_pos hz0]
      · rw [sanitize_for_log_provider, if_neg hz0, maskWord_eq_self_of_not_has hmz,
          maskRuns_eq_self_of_noRun32 hrz, hez, htz]
    by_cases hx : x = []
    · subst hx
      have e1 : sanitize_for_log_provider [] = [] := by
        rw [sanitize_for_log_provider, if_pos rfl]
      rw [e1, e1]
    · have e0 : sanitize_for_log_provider x =
          truncateLog (maskEmail (maskRuns (maskWord bearerWord bearerCap x))) := by
        rw [sanitize_for_log_provider, if_neg hx]
      refine efix _ ?_ ?_ ?_ ?_
      · rw [e0]
        exact not_hasWordMatch_truncateLog hge
          (not_hasWordMatch_maskEmail hge
            (not_hasWordMatch_maskRuns hge (not_hasWordMatch_maskWord hge x)))
      · rw [e0]
        exact noRun32_truncateLog (noRun32_maskEmail (noRun32_maskRuns _))
      · rw [e0]
        exact maskEmail_truncateLog_fix (maskEmail_idem _)
      · rw [e0]
        exact truncateLog_idem _

/-- C6 (amended): each redactor's output never contains an alphanumeric run
of 32 or more characters, the tools redactor's output never contains a
literal `Basic` credential pattern, and the provider redactor's output never
contains a literal `Bearer` token pattern; the tools redactor does not mask
`Bearer` tokens (see the counterexample). -/
theorem redactor_output_guarantees (text : List Char) :
    NoRun32 (sanitize_for_log_tools text) ∧
    ¬ HasWordMatch basicWord (sanitize_for_log_tools text) ∧
    NoRun32 (sanitize_for_log_provider text) ∧
    ¬ HasWordMatch bearerWord (sanitize_for_log_provider text) := by
  have hgb : GoodWord basicWord basicCap := ⟨by decide, by decide, by decide, by decide⟩
  have hge : GoodWord bearerWord bearerCap :=
    ⟨by decide, by decide, by decide, by decide⟩
  by_cases hx : text = []
  · subst hx
    have e1 : sanitize_for_log_tools [] = [] := by
      rw [sanitize_for_log_tools, if_pos rfl]
    have e2 : sanitize_for_log_provider [] = [] := by
      rw [sanitize_for_log_provider, if_pos rfl]
    rw [e1, e2]
    refine ⟨?_, ?_, ?_, ?_⟩
    · intro m hm _
      rw [List.sublist_nil.mp hm.sublist]
      exact Nat.zero_le 31
    · rintro ⟨m, hinf, hmatch⟩
      exact wordMatch_ne_nil hgb hmatch (List.sublist_nil.mp hinf.sublist)
    · intro m hm _
      rw [List.sublist_nil.mp hm.sublist]
      exact Nat.zero_le 31
    · rintro ⟨m, hinf, hmatch⟩
      exact wordMatch_ne_nil hge hmatch (List.sublist_nil.mp hinf.sublist)
  · have e0 : sanitize_for_log_tools text =
        truncateLog (maskRuns (maskWord basicWord basicCap text)) := by
      rw [sanitize_for_log_tools, if_neg hx]
    have e0p : sanitize_for_log_provider text =
        truncateLog (maskEmail (maskRuns (maskWord bearerWord bearerCap text))) := by
      rw [sanitize_for_log_provider, if_neg hx]
    refine ⟨?_, ?_, ?_, ?_⟩
    · rw [e0]
      exact noRun32_truncateLog (noRun32_maskRuns _)
    · rw [e0]
      exact not_hasWordMatch_truncateLog hgb
        (not_hasWordMatch_maskRuns hgb (not_hasWordMatch_maskWord hgb text))
    · rw [e0p]
      exact noRun32_truncateLog (noRun32_maskEmail (noRun32_maskRuns _))
    · rw [e0p]
      exact not_hasWordMatch_truncateLog hge
        (not_hasWordMatch_maskEmail hge
          (not_hasWordMatch_maskRuns hge (not_hasWordMatch_maskWord hge text)))

/-- C6 counterexample: the tools redactor passes the input
`Bearer AAAAAAAAAAAAAAAAAAAA` through unchanged, so a literal bearer
authorization token (scheme word, whitespace, 20 base64 characters) survives
in its output, contradicting the claim for bearer tokens. -/
theorem redactor_tools_keeps_bearer_cex :
    sanitize_for_log_tools ("Bearer AAAAAAAAAAAAAAAAAAAA".data) =
        "Bearer AAAAAAAAAAAAAAAAAAAA".data ∧
      HasWordMatch bearerWord ("Bearer AAAAAAAAAAAAAAAAAAAA".data) := by
  have hnr : NoRun32 ("Bearer AAAAAAAAAAAAAAAAAAAA".data) := by
    intro m hm _
    exact Nat.le_trans hm.length_le (by decide)
  constructor
  · rw [sanitize_for_log_tools, if_neg (by decide),
      maskWord_eq_self_of_tails_check (by decide),
      maskRuns_eq_self_of_noRun32 hnr, truncateLog, if_neg (by decide)]
  · refine ⟨"Bearer AAAAAAAAAAAAAAAAAAAA".data, List.infix_refl _,
      "Bearer".data, [' '], "AAAAAAAAAAAAAAAAAAAA".data,
      by decide, by decide, by decide, by decide, by decide, by decide⟩

theorem base_url_suffix_common {r : List Char} (hsf : wpSuffix <:+ r) :
    r.getLast? = some '2' ∧ r.getLast? ≠ some '/' ∧ postInitBaseUrl r = .ok r := by
  have hlast : r.getLast? = some '2' := by
    rw [getLast?_of_suffix hsf (by decide)]; decide
  have h2mem : '2' ∈ r := by
    obtain ⟨t, ht⟩ := hsf
    rw [← ht]
    exact List.mem_append.mpr (Or.inr (by decide))
  have hstrip : pyStrip r ≠ [] := pyStrip_ne_nil_of_mem h2mem (by decide)
  have hrne : ¬(r = [] ∨ pyStrip r = []) := by
    rintro (h3 | h3)
    · rw [h3] at h2mem; cases h2mem
    · exact hstrip h3
  have hrs : rstripSlash r = r := rstripSlash_eq_self hlast (by decide)
  refine ⟨hlast, by rw [hlast]; decide, ?_⟩
  rw [postInitBaseUrl, if_neg hrne, hrs, if_pos (isSuffixOf_iff_suffix.mpr hsf)]

/-- C10.  Base-URL normalisation at client construction
(`WordPressHttpClient.__post_init__`): a whitespace-only (in particular
empty) URL raises `ValueError`; otherwise the computed `base_url` ends
with `/wp-json/wp/v2`, has no trailing slash (its last character is `'2'`),
and feeding an already-normalised `base_url` back through construction
returns it unchanged. -/
theorem base_url_normalisation (url : List Char) :
    (pyStrip url = [] → ∃ e, postInitBaseUrl url = .error e) ∧
    (pyStrip url ≠ [] →
      ∃ b, postInitBaseUrl url = .ok b ∧ wpSuffix <:+ b ∧
        b.getLast? = some '2' ∧ b.getLast? ≠ some '/' ∧
        postInitBaseUrl b = .ok b) := by
  constructor
  · intro h
    rw [postInitBaseUrl, if_pos (Or.inr h)]
    exact ⟨_, rfl⟩
  · intro h
    have hne : ¬(url = [] ∨ pyStrip url = []) := by
      rintro (rfl | h2)
      · exact h rfl
      · exact h h2
    by_cases hs : wpSuffix.isSuffixOf (rstripSlash url)
    · have hsf : wpSuffix <:+ rstripSlash url := isSuffixOf_iff_suffix.mp hs
      obtain ⟨ha, hb2, hc⟩ := base_url_suffix_common hsf
      exact ⟨rstripSlash url, by rw [postInitBaseUrl, if_neg hne, if_pos hs], hsf, ha, hb2, hc⟩
    · have hsf : wpSuffix <:+ rstripSlash url ++ wpSuffix := List.suffix_append _ _
      obtain ⟨ha, hb2, hc⟩ := base_url_suffix_common hsf
      exact ⟨rstripSlash url ++ wpSuffix,
        by rw [postInitBaseUrl, if_neg hne, if_neg hs], hsf, ha, hb2, hc⟩

/-- Witness for C10: the non-empty URL `http://x` is normalised to a value
that ends in the `/wp-json/wp/v2` suffix and is a fixed point of the
normalisation. -/
theorem base_url_normalisation_witness :
    pyStrip "http://x".data ≠ [] ∧
    ∃ b, postInitBaseUrl "http://x".data = .ok b ∧ wpSuffix <:+ b ∧
      b.getLast? = some '2' ∧ b.getLast? ≠ some '/' ∧ postInitBaseUrl b = .ok b :=
  ⟨by decide, (base_url_normalisation "http://x".data).2 (by decide)⟩

/-- C8.  `send_transactional_email` returns the `X-Message-Id` header value
whenever that header is present with a non-empty value, and a synthetic
`msg_{int(time.time())}` identifier when the header is absent. -/
theorem email_message_id (headers : List (List Char × List Char)) (now : Nat) :
    (∀ v, headers.lookup "X-Message-Id".data = some v → v ≠ [] →
        sendEmailMessageId headers now = v) ∧
    (headers.lookup "X-Message-Id".data = none →
        sendEmailMessageId headers now = "msg_".data ++ Nat.toDigits 10 now) := by
  constructor
  · intro v hv hne
    simp [sendEmailMessageId, hv, hne]
  · intro h
    simp [sendEmailMessageId, h]

/-- Witness for C8: header `X-Message-Id: abc123` yields `abc123`; no
header yields the timestamp-derived identifier. -/
theorem email_message_id_witness :
    sendEmailMessageId [("X-Message-Id".data, "abc123".data)] 1700000000 = "abc123".data ∧
    sendEmailMessageId [] 1700000000 = "msg_".data ++ Nat.toDigits 10 1700000000 :=
  ⟨(email_message_id [("X-Message-Id".data, "abc123".data)] 1700000000).1
      "abc123".data (by decide) (by decide),
   (email_message_id [] 1700000000).2 (by decide)⟩

/-- C9 (amended).  A file reference whose inline `content` is a non-empty
string resolves to a temporary file without any decode error: strict
base64 decoding of the stripped string is attempted first, and on failure
the stripped string's UTF-8 bytes are written instead. -/
theorem inline_string_content_resolution (s : List Char) (h : s ≠ []) :
    ∃ payload, resolve_single ⟨none, some (.str s), none, none, none⟩ = .tempFile payload ∧
      (∀ bs, pyB64Decode (pyStrip s) = some bs → payload = bs) ∧
      (pyB64Decode (pyStrip s) = none → payload = utf8Encode (pyStrip s)) := by
  have ht : pyTruthy (.str s) = true := by simp [pyTruthy, h]
  cases hb : pyB64Decode (pyStrip s) with
  | some bs =>
    refine ⟨bs, ?_, ?_, ?_⟩
    · simp [resolve_single, resolve_single.resolveContent, ht, coerce_bytes, hb]
    · intro bs' hb'
      exact Option.some.inj hb' 
    · intro hn
      exact Option.noConfusion hn
  | none =>
    refine ⟨utf8Encode (pyStrip s), ?_, ?_, ?_⟩
    · simp [resolve_single, resolve_single.resolveContent, ht, coerce_bytes, hb]
    · intro bs' hb'
      exact Option.noConfusion hb'
    · intro _
      rfl

/-- Witness for C9 at the valid base64 string `"QUJD="` (four data
characters plus one trailing padding character, which
`binascii.a2b_base64` in strict mode accepts; it decodes to `ABC`, bytes
65 66 67). -/
theorem inline_string_content_resolution_witness :
    ("QUJD=".data ≠ []) ∧
    pyB64Decode (pyStrip "QUJD=".data) = some [65, 66, 67] ∧
    (∃ payload, resolve_single ⟨none, some (.str "QUJD=".data), none, none, none⟩ =
        .tempFile payload ∧
      (∀ bs, pyB64Decode (pyStrip "QUJD=".data) = some bs → payload = bs) ∧
      (pyB64Decode (pyStrip "QUJD=".data) = none →
        payload = utf8Encode (pyStrip "QUJD=".data))) :=
  ⟨by decide, by decide, inline_string_content_resolution "QUJD=".data (by decide)⟩

/-- Counterexample for C9 as stated: for the inline string `" abc! "`
(invalid base64), the resolver writes the UTF-8 bytes of the *stripped*
string `"abc!"`, which differ from the UTF-8 encoding of the string
itself. -/
theorem inline_string_content_strip_cex :
    resolve_single ⟨none, some (.str " abc! ".data), none, none, none⟩ =
      .tempFile (utf8Encode "abc!".data) ∧
    utf8Encode "abc!".data ≠ utf8Encode " abc! ".data := by
  exact ⟨by decide, by decide⟩

/-- C3.  The declared-Content-Length guard of `_download` reaches its
intentional oversize `ValueError` for a 20 MiB declaration, but the
surrounding `except (ValueError, TypeError): pass` swallows that very
exception, so the guard reports success and a temporary file is created
and streamed into anyway — resolution does *not* fail before the file is
opened. -/
theorem content_length_guard_swallows_oversize :
    pyParseInt "20971520".data = some 20971520 ∧
    (MAX_DOWNLOAD_SIZE : Int) < 20971520 ∧
    contentLengthTryBody "20971520".data =
      .error (.valueError "ファイルサイズが大きすぎます".data) ∧
    contentLengthGuard (some "20971520".data) = .ok () ∧
    (downloadModel (some "20971520".data) []).tempCreated = true ∧
    (downloadModel (some "20971520".data) []).outcome = .ok [] := by
  refine ⟨by decide, by decide, rfl, rfl, rfl, rfl⟩

theorem contentLengthTryBody_shape (v : List Char) :
    contentLengthTryBody v = .ok () ∨
      ∃ m, contentLengthTryBody v = .error (.valueError m) := by
  unfold contentLengthTryBody
  cases h : pyParseInt v with
  | none =>
    exact Or.inr ⟨_, rfl⟩
  | some size =>
    by_cases hgt : size > (MAX_DOWNLOAD_SIZE : Int)
    · exact Or.inr ⟨_, if_pos hgt⟩
    · exact Or.inl (if_neg hgt)

theorem contentLengthGuard_ok (cl : Option (List Char)) :
    contentLengthGuard cl = .ok () := by
  cases cl with
  | none => rfl
  | some v =>
    rw [contentLengthGuard]
    by_cases hv : v ≠ []
    · rw [if_pos hv]
      rcases contentLengthTryBody_shape v with h | ⟨m, h⟩ <;> rw [h]
    · rw [if_neg hv]

theorem streamToTemp_aborts (events : List StreamEvent) :
    ∀ size written, size ≤ MAX_DOWNLOAD_SIZE →
      (MAX_DOWNLOAD_SIZE < size + sumChunks events ∨ .fail ∈ events) →
      (streamToTemp events size written).tempExists = false ∧
      ∃ e, (streamToTemp events size written).outcome = .error e := by
  induction events with
  | nil =>
    intro size written hs h
    rcases h with h | h
    · rw [sumChunks] at h
      omega
    · cases h
  | cons ev rest ih =>
    intro size written hs h
    cases ev with
    | fail => exact ⟨rfl, .otherExc, rfl⟩
    | chunk n =>
      rw [streamToTemp]
      by_cases hn : n ≠ 0
      · rw [if_pos hn]
        by_cases hover : size + n > MAX_DOWNLOAD_SIZE
        · rw [if_pos hover]
          exact ⟨rfl, _, rfl⟩
        · rw [if_neg hover]
          refine ih (size + n) (written ++ [n]) (by omega) ?_
          rcases h with h | h
          · rw [sumChunks] at h
            left
            omega
          · right
            cases h with
            | tail _ h2 => exact h2
      · rw [if_neg hn]
        refine ih size written hs ?_
        rcases h with h | h
        · rw [sumChunks] at h
          left
          omega
        · right
          rcases List.mem_cons.mp h with h2 | h2
          · exact absurd h2 (by simp)
          · exact h2

/-- C4.  Whenever the cumulative size of the streamed chunks exceeds the
10 MiB cap, or any exception occurs mid-stream, `_download` aborts with an
error and the partial temporary file is deleted (it no longer exists
afterwards). -/
theorem download_bounded_and_cleanup (cl : Option (List Char)) (events : List StreamEvent)
    (h : MAX_DOWNLOAD_SIZE < sumChunks events ∨ .fail ∈ events) :
    (downloadModel cl events).tempExists = false ∧
    ∃ e, (downloadModel cl events).outcome = .error e := by
  rw [downloadModel, contentLengthGuard_ok]
  refine streamToTemp_aborts events 0 [] (Nat.zero_le _) ?_
  rcases h with h | h
  · left
    omega
  · right
    exact h

/-- Witness for C4: two 6 MB chunks (12 MB total, no declared length)
abort the stream and delete the file. -/
theorem download_bounded_and_cleanup_witness :
    (MAX_DOWNLOAD_SIZE < sumChunks [.chunk 6000000, .chunk 6000000] ∨
      .fail ∈ ([.chunk 6000000, .chunk 6000000] : List StreamEvent)) ∧
    ((downloadModel none [.chunk 6000000, .chunk 6000000]).tempExists = false ∧
      ∃ e, (downloadModel none [.chunk 6000000, .chunk 6000000]).outcome = .error e) :=
  ⟨Or.inl (by decide),
   download_bounded_and_cleanup none [.chunk 6000000, .chunk 6000000] (Or.inl (by decide))⟩

theorem requestLoop_attempts_le (script : Nat → AttemptOutcome) (mr : Nat) :
    ∀ fuel attempt, (requestLoop script mr fuel attempt).attempts ≤ fuel := by
  intro fuel
  induction fuel with
  | zero =>
    intro attempt
    exact Nat.le_refl 0
  | succ f ih =>
    intro attempt
    cases h : script attempt with
    | transErr m =>
      simp only [requestLoop, h]
      by_cases hlt : attempt < mr
      · rw [if_pos hlt]
        exact Nat.succ_le_succ (ih (attempt + 1))
      · rw [if_neg hlt]
        exact Nat.succ_le_succ (Nat.zero_le f)
    | resp st ra =>
      simp only [requestLoop, h]
      by_cases hc : st ∈ retryStatuses ∧ attempt < mr
      · rw [if_pos hc]
        exact Nat.succ_le_succ (ih (attempt + 1))
      · rw [if_neg hc]
        by_cases h4 : 400 ≤ st
        · rw [if_pos h4]
          exact Nat.succ_le_succ (Nat.zero_le f)
        · rw [if_neg h4]
          exact Nat.succ_le_succ (Nat.zero_le f)

theorem mem_retryStatuses_ge_400 {st : Nat} (h : st ∈ retryStatuses) : 400 ≤ st := by
  simp only [retryStatuses, List.mem_cons, List.not_mem_nil, or_false] at h
  rcases h with rfl | rfl | rfl | rfl | rfl | rfl | rfl <;> decide

/-- C1.  The attempt loop of `_request` performs at most
`max_retries + 1` attempts; a response with status in
{408, 425, 429, 500, 502, 503, 504} with attempts remaining records a
sleep and re-runs the loop at the next attempt; and with no attempts
remaining, a retryable status raises a fatal status error and a transport
failure raises a fatal transport error instead of looping further. -/
theorem retry_loop_policy (script : Nat → AttemptOutcome) (mr : Nat) :
    (executeRequest script mr).attempts ≤ mr + 1 ∧
    (∀ fuel attempt st ra, script attempt = .resp st ra → st ∈ retryStatuses →
      attempt < mr →
      requestLoop script mr (fuel + 1) attempt =
        ⟨retryDelay st ra attempt :: (requestLoop script mr fuel (attempt + 1)).sleeps,
         (requestLoop script mr fuel (attempt + 1)).attempts + 1,
         (requestLoop script mr fuel (attempt + 1)).result⟩) ∧
    (∀ fuel st ra, script mr = .resp st ra → st ∈ retryStatuses →
      (requestLoop script mr (fuel + 1) mr).result = .fatalStatus st) ∧
    (∀ fuel m, script mr = .transErr m →
      (requestLoop script mr (fuel + 1) mr).result = .fatalTransport m) := by
  refine ⟨requestLoop_attempts_le script mr (mr + 1) 0, ?_, ?_, ?_⟩
  · intro fuel attempt st ra h hst hlt
    simp only [requestLoop, h, if_pos (And.intro hst hlt)]
  · intro fuel st ra h hst
    have hge := mem_retryStatuses_ge_400 hst
    simp only [requestLoop, h]
    rw [if_neg (fun hc => Nat.lt_irrefl mr hc.2), if_pos hge]
  · intro fuel m h
    simp only [requestLoop, h, if_neg (Nat.lt_irrefl mr)]

/-- Witness for C1 with a permanently-503 script and a
permanently-failing transport at `max_retries = 2`. -/
theorem retry_loop_policy_witness :
    (executeRequest (fun _ => .resp 503 none) 2).attempts ≤ 2 + 1 ∧
    (requestLoop (fun _ => .resp 503 none) 2 (2 + 1) 0 =
      ⟨retryDelay 503 none 0 :: (requestLoop (fun _ => .resp 503 none) 2 2 (0 + 1)).sleeps,
       (requestLoop (fun _ => .resp 503 none) 2 2 (0 + 1)).attempts + 1,
       (requestLoop (fun _ => .resp 503 none) 2 2 (0 + 1)).result⟩) ∧
    (requestLoop (fun _ => .resp 503 none) 2 (0 + 1) 2).result = .fatalStatus 503 ∧
    (requestLoop (fun _ => .transErr "boom".data) 2 (0 + 1) 2).result =
      .fatalTransport "boom".data :=
  ⟨(retry_loop_policy (fun _ => .resp 503 none) 2).1,
   (retry_loop_policy (fun _ => .resp 503 none) 2).2.1 2 0 503 none rfl (by decide) (by decide),
   (retry_loop_policy (fun _ => .resp 503 none) 2).2.2.1 0 503 none rfl (by decide),
   (retry_loop_policy (fun _ => .transErr "boom".data) 2).2.2.2 0 "boom".data rfl⟩

/-- Counterexample for C2 as stated: `Retry-After: -1` parses as the
integer `-1`, yet the engine sleeps `2 ** 0 = 1` second (the
exponential-backoff value), not `-1` — `time.sleep` raises `ValueError`
on negative input and the surrounding except falls back to backoff. -/
theorem retry_after_negative_cex :
    pyParseInt "-1".data = some (-1) ∧
    (executeRequest
        (fun i => if i = 0 then .resp 429 (some "-1".data) else .resp 200 none) 2).sleeps =
      [1] ∧
    (1 : Int) ≠ -1 := by
  exact ⟨by decide, rfl, by decide⟩

/-- C2 (amended).  For a 429 response with attempts remaining and a
non-empty `Retry-After` header: a value parsing as a non-negative integer
`n` makes the engine sleep exactly `n` seconds; a non-numeric value falls
back to `2 ** attempt` without raising; and a negative integer also falls
back to `2 ** attempt` (Python's `time.sleep` rejects it and the same
except-clause catches the `ValueError`). -/
theorem retry_after_policy (script : Nat → AttemptOutcome) (mr fuel attempt : Nat)
    (v : List Char) (hlt : attempt < mr) (hs : script attempt = .resp 429 (some v))
    (hv : v ≠ []) :
    (∀ n : Int, pyParseInt v = some n → 0 ≤ n →
       (requestLoop script mr (fuel + 1) attempt).sleeps.head? = some n) ∧
    (pyParseInt v = none →
       (requestLoop script mr (fuel + 1) attempt).sleeps.head? =
         some ((2 : Int) ^ attempt)) ∧
    (∀ n : Int, pyParseInt v = some n → n < 0 →
       (requestLoop script mr (fuel + 1) attempt).sleeps.head? =
         some ((2 : Int) ^ attempt)) := by
  have hmem : (429 : Nat) ∈ retryStatuses := by decide
  have key : ∀ d, retryDelay 429 (some v) attempt = d →
      (requestLoop script mr (fuel + 1) attempt).sleeps.head? = some d := by
    intro d hd
    simp only [requestLoop, hs, if_pos (And.intro hmem hlt)]
    simp [hd]
  refine ⟨?_, ?_, ?_⟩
  · intro n hn h0
    apply key
    simp [retryDelay, hn, hv, h0]
  · intro hn
    apply key
    simp [retryDelay, hn, hv]
  · intro n hn hneg
    apply key
    simp [retryDelay, hn, hv, not_le.mpr hneg]

/-- Witness for C2 at `Retry-After` values `5`, `abc` and `-7`. -/
theorem retry_after_policy_witness :
    (requestLoop (fun _ => .resp 429 (some "5".data)) 2 1 0).sleeps.head? = some 5 ∧
    (requestLoop (fun _ => .resp 429 (some "abc".data)) 2 1 0).sleeps.head? =
      some ((2 : Int) ^ 0) ∧
    (requestLoop (fun _ => .resp 429 (some "-7".data)) 2 1 0).sleeps.head? =
      some ((2 : Int) ^ 0) :=
  ⟨(retry_after_policy (fun _ => .resp 429 (some "5".data)) 2 0 0 "5".data
      (by decide) rfl (by decide)).1 5 (by decide) (by decide),
   (retry_after_policy (fun _ => .resp 429 (some "abc".data)) 2 0 0 "abc".data
      (by decide) rfl (by decide)).2.1 (by decide),
   (retry_after_policy (fun _ => .resp 429 (some "-7".data)) 2 0 0 "-7".data
      (by decide) rfl (by decide)).2.2 (-7) (by decide) (by decide)⟩

/-- C7 (amended).  For every response whose declared content type contains
`text/html` (after lowercasing) and whose body is non-empty after
stripping, `_parse_json_response` raises a `WordPressHttpError` — never a
success — whose message starts with the HTML diagnostic and carries the
hint chosen in priority order: login markers, then 404 markers, then 403
markers, otherwise the REST-disabled hint.  (An empty or whitespace-only
body instead raises the empty-response error first; see the
counterexample.) -/
theorem html_response_classification (status : Nat) (contentType body url : List Char)
    (jsonOk : Bool) (hct : infixOf "text/html".data (pyLower contentType) = true)
    (hbody : pyStrip body ≠ []) :
    ∃ msg, parse_json_response status contentType body url jsonOk = .error status msg body ∧
      htmlErrorHint body <+: msg ∧ htmlErrorHint body ≠ [] ∧
      (loginMarker body = true → credentialHint <:+: msg) ∧
      (loginMarker body = false → notFoundMarker body = true → endpointHint <:+: msg) ∧
      (loginMarker body = false → notFoundMarker body = false →
        forbiddenMarker body = true → permissionHint <:+: msg) ∧
      (loginMarker body = false → notFoundMarker body = false →
        forbiddenMarker body = false → disabledHint <:+: msg) := by
  have hbne : ¬(body = [] ∨ pyStrip body = []) := by
    rintro (rfl | h)
    · exact hbody rfl
    · exact hbody h
  have hinfix : ∀ tail hint, htmlErrorHint body = htmlBaseMsg ++ hint →
      hint <:+: htmlErrorHint body ++ tail := by
    intro tail hint he
    rw [he]
    exact ((List.suffix_append htmlBaseMsg hint).isInfix.trans
      (List.prefix_append (htmlBaseMsg ++ hint) tail).isInfix)
  refine ⟨htmlErrorHint body ++ " リクエストURL: ".data ++ url ++
      (if infixOf "localhost:8080".data (pyLower url) then
        "\n\n注意: リクエストURLがlocalhost:8080になっています。Difyのプロバイダー設定で、正しいWordPressサイトURL（例: https://your-site.com）を設定してください。".data
      else []), ?_, ?_, ?_, ?_, ?_, ?_, ?_⟩
  · simp only [parse_json_response, if_neg hbne, hct, if_true]
  · rw [List.append_assoc, List.append_assoc]
    exact List.prefix_append _ _
  · rw [htmlErrorHint]
    simp [htmlBaseMsg]
  · intro hl
    rw [List.append_assoc, List.append_assoc]
    exact hinfix _ _ (by rw [htmlErrorHint, if_pos hl])
  · intro hl hn
    rw [List.append_assoc, List.append_assoc]
    exact hinfix _ _ (by rw [htmlErrorHint, if_neg (by simp [hl]), if_pos hn])
  · intro hl hn hf
    rw [List.append_assoc, List.append_assoc]
    exact hinfix _ _
      (by rw [htmlErrorHint, if_neg (by simp [hl]), if_neg (by simp [hn]), if_pos hf])
  · intro hl hn hf
    rw [List.append_assoc, List.append_assoc]
    exact hinfix _ _
      (by rw [htmlErrorHint, if_neg (by simp [hl]), if_neg (by simp [hn]),
        if_neg (by simp [hf])])

/-- Witness for C7: an HTML login page with status 200 classifies as an
error carrying the bad-credentials hint. -/
theorem html_response_classification_witness :
    infixOf "text/html".data (pyLower "Text/HTML; charset=utf-8".data) = true ∧
    pyStrip "<html>Please login</html>".data ≠ [] ∧
    (∃ msg, parse_json_response 200 "Text/HTML; charset=utf-8".data
        "<html>Please login</html>".data "http://example.com".data true =
        .error 200 msg "<html>Please login</html>".data ∧
      htmlErrorHint "<html>Please login</html>".data <+: msg ∧
      htmlErrorHint "<html>Please login</html>".data ≠ [] ∧
      (loginMarker "<html>Please login</html>".data = true → credentialHint <:+: msg) ∧
      (loginMarker "<html>Please login</html>".data = false →
        notFoundMarker "<html>Please login</html>".data = true → endpointHint <:+: msg) ∧
      (loginMarker "<html>Please login</html>".data = false →
        notFoundMarker "<html>Please login</html>".data = false →
        forbiddenMarker "<html>Please login</html>".data = true →
        permissionHint <:+: msg) ∧
      (loginMarker "<html>Please login</html>".data = false →
        notFoundMarker "<html>Please login</html>".data = false →
        forbiddenMarker "<html>Please login</html>".data = false →
        disabledHint <:+: msg)) :=
  ⟨by decide, by decide,
   html_response_classification 200 "Text/HTML; charset=utf-8".data
     "<html>Please login</html>".data "http://example.com".data true
     (by decide) (by decide)⟩

/-- Counterexample for C7 as stated: an HTML-typed response with an empty
body raises the empty-response error, whose message does not carry the
REST-disabled hint the priority order would mandate for a marker-free
body. -/
theorem html_response_empty_body_cex :
    parse_json_response 200 "text/html".data [] "http://example.com".data true =
      .error 200 emptyRespMsg [] ∧
    loginMarker [] = false ∧ notFoundMarker [] = false ∧ forbiddenMarker [] = false ∧
    infixOf disabledHint emptyRespMsg = false ∧
    infixOf "text/html".data (pyLower "text/html".data) = true :=
  ⟨rfl, by decide, by decide, by decide, by decide, by decide⟩

end WpPlugin
